import Mathlib

/-!
# Verification of the koopman-learning-and-control core

Shallow embedding over `ℚ` of the bilinear-EDMD fitting code
(`koopman_core/learning/bilinear_edmd.py`) and of the two MPC controllers
(`koopman_core/controllers/nonlinear_mpc_controller.py`,
`koopman_core/controllers/bilinear_mpc_controller.py`), together with
theorems settling the specification claims about them.

Conventions:
* numpy floating point arithmetic is embedded as exact arithmetic over `ℚ`;
* a dense matrix is a `List (List ℚ)`; depending on how the source code
  accesses it we store it either as a list of rows (`Rows` suffix in names)
  or as a list of columns (`Cols` suffix in names);
* scipy sparse matrices are modelled as lists of full (dense) columns,
  because every sparse matrix the controller builds is constructed from
  dense blocks (which scipy stores dropping exact zeros) or from
  `eye`/`kron` patterns, so the stored CSC entries of each column are
  exactly the nonzero entries of that column in increasing row order.
-/

namespace KoopCore

/-- Nonzero entries of a list, in order: the values a scipy sparse
conversion of a dense column would store. -/
def nzs (l : List ℚ) : List ℚ := l.filter (fun x => x ≠ 0)

theorem nzs_append (a b : List ℚ) : nzs (a ++ b) = nzs a ++ nzs b := by
  simp [nzs]

theorem nzs_replicate_zero (k : ℕ) : nzs (List.replicate k (0 : ℚ)) = [] := by
  induction k with
  | zero => rfl
  | succ n ih => rw [List.replicate_succ]; simp [nzs]

theorem nzs_of_all_ne_zero (l : List ℚ) (h : ∀ x ∈ l, x ≠ 0) : nzs l = l := by
  induction l with
  | nil => rfl
  | cons a t ih =>
      have ha : a ≠ 0 := h a (by simp)
      have ht : ∀ x ∈ t, x ≠ 0 := fun x hx => h x (by simp [hx])
      have hrec := ih ht
      unfold nzs at hrec ⊢
      rw [List.filter_cons_of_pos (by simp [ha]), hrec]

/-- Dot product of two lists (zip-truncating, as both operands always have
equal length where it is used). -/
def dotL (a b : List ℚ) : ℚ := (List.zipWith (· * ·) a b).sum

/-- `M @ v` for a matrix stored as a list of rows. -/
def matVecRows (rows : List (List ℚ)) (v : List ℚ) : List ℚ :=
  rows.map (fun r => dotL r v)

/-- Elementwise sum of two equally long lists. -/
def addL (a b : List ℚ) : List ℚ := List.zipWith (· + ·) a b

/-- Elementwise difference of two equally long lists. -/
def subL (a b : List ℚ) : List ℚ := List.zipWith (· - ·) a b

/-- Elementwise negation. -/
def negL (a : List ℚ) : List ℚ := a.map (fun x => -x)

/-- Elementwise sum of two matrices (any row/column representation). -/
def addM (a b : List (List ℚ)) : List (List ℚ) := List.zipWith addL a b

/-- `data[inds] = vals`: write `vals` one by one at positions `inds`,
`numpy`'s fancy-index assignment on a flat array. -/
def writeAt (data : List ℚ) (inds : List ℕ) (vals : List ℚ) : List ℚ :=
  (List.zip inds vals).foldl (fun d p => d.set p.1 p.2) data

theorem writeAt_nil (d : List ℚ) : writeAt d [] [] = d := rfl

theorem length_writeAt (d : List ℚ) (is : List ℕ) (vs : List ℚ) :
    (writeAt d is vs).length = d.length := by
  unfold writeAt
  generalize List.zip is vs = ps
  induction ps generalizing d with
  | nil => rfl
  | cons p t ih => simp [List.foldl_cons, ih, List.length_set]

theorem writeAt_cons (d : List ℚ) (i : ℕ) (v : ℚ) (is : List ℕ) (vs : List ℚ) :
    writeAt d (i :: is) (v :: vs) = writeAt (d.set i v) is vs := rfl

/-- Writing at positions shifted past a prefix leaves the prefix intact. -/
theorem writeAt_shift (xs ys : List ℚ) (is : List ℕ) (vs : List ℚ) :
    writeAt (xs ++ ys) (is.map (fun i => i + xs.length)) vs =
      xs ++ writeAt ys is vs := by
  induction is generalizing vs ys with
  | nil => cases vs <;> rfl
  | cons i t ih =>
      cases vs with
      | nil => rfl
      | cons v vt =>
          rw [List.map_cons, writeAt_cons, writeAt_cons,
            List.set_append_right _ _ (Nat.le_add_left _ _)]
          simpa [Nat.add_sub_cancel] using ih (ys.set i v) vt

/-- Writing at positions inside the prefix leaves the suffix intact. -/
theorem writeAt_left (xs ys : List ℚ) (is : List ℕ) (vs : List ℚ)
    (h : ∀ i ∈ is, i < xs.length) :
    writeAt (xs ++ ys) is vs = writeAt xs is vs ++ ys := by
  induction is generalizing vs xs with
  | nil => cases vs <;> rfl
  | cons i t ih =>
      cases vs with
      | nil => rfl
      | cons v vt =>
          rw [writeAt_cons, writeAt_cons,
            List.set_append_left _ _ (h i (by simp))]
          exact ih _ vt (fun j hj => by
            simpa [List.length_set] using h j (by simp [hj]))

/-- Splitting a fancy-index write into two successive writes. -/
theorem writeAt_append (d : List ℚ) (i1 i2 : List ℕ) (v1 v2 : List ℚ)
    (h : i1.length = v1.length) :
    writeAt d (i1 ++ i2) (v1 ++ v2) = writeAt (writeAt d i1 v1) i2 v2 := by
  unfold writeAt
  rw [List.zip_append h, List.foldl_append]

/-- Overwriting the `k` elements after a head element of a list with a fresh
block of `k` values replaces that block. -/
theorem writeAt_range_block (a0 a1 c : List ℚ) (h : a0.length = a1.length) :
    writeAt (a0 ++ c) (List.range a1.length) a1 = a1 ++ c := by
  induction a1 generalizing a0 with
  | nil => cases a0 with
    | nil => rfl
    | cons x xs => simp at h
  | cons v vt ih =>
      cases a0 with
      | nil => simp at h
      | cons x xs =>
          rw [List.length_cons, List.range_succ_eq_map, writeAt_cons,
            List.cons_append, List.set_cons_zero]
          have hsh := writeAt_shift [v] (xs ++ c) (List.range vt.length) vt
          simp only [List.length_cons, List.length_nil,
            List.singleton_append, Nat.zero_add] at hsh
          have hmap : (List.range vt.length).map Nat.succ =
              (List.range vt.length).map (fun i => i + 1) := by
            simp [Nat.succ_eq_add_one]
          rw [hmap, hsh, ih xs (by simpa using h), List.cons_append]

/-! ## scipy.sparse combinators (matrices as lists of dense columns) -/

/-- `sparse.csc_matrix((r, c))`: an all-zero block. -/
def spZeros (r c : ℕ) : List (List ℚ) := List.replicate c (List.replicate r 0)

/-- Column `i` of `v * eye n`. -/
def spDiagCol (v : ℚ) (n i : ℕ) : List ℚ :=
  (List.range n).map (fun j => if j = i then v else 0)

/-- `v * sparse.eye n` (`v = 1` gives `eye`, `v = -1` gives `-eye`). -/
def spDiag (v : ℚ) (n : ℕ) : List (List ℚ) :=
  (List.range n).map (spDiagCol v n)

/-- `sparse.hstack`: concatenate the column lists. -/
def spHstack (ms : List (List (List ℚ))) : List (List ℚ) := ms.flatten

/-- `sparse.vstack` of two blocks: stack each column. -/
def spVstack2 (a b : List (List ℚ)) : List (List ℚ) := List.zipWith (· ++ ·) a b

/-- `sparse.block_diag` of blocks that all have `nr` rows. -/
def spBlockDiagU (nr : ℕ) : List (List (List ℚ)) → List (List ℚ)
  | [] => []
  | b :: bs =>
      b.map (fun col => col ++ List.replicate (bs.length * nr) 0) ++
        (spBlockDiagU nr bs).map (fun col => List.replicate nr 0 ++ col)

/-- `sparse.kron(sparse.eye k, C)` where `C` has `nr` rows, as block-diagonal
replication. -/
def spKronEye (k nr : ℕ) (c : List (List ℚ)) : List (List ℚ) :=
  spBlockDiagU nr (List.replicate k c)

/-- The stored CSC `data` array of a sparse matrix given as dense columns:
per column, its nonzero values in increasing row order. -/
def cscData (m : List (List ℚ)) : List ℚ := (m.map nzs).flatten

/-! ## NonlinearMPCController: constraint matrix and its data array

The controller state that the constraint-matrix code reads is `N` (horizon),
`nx` (lifted state dimension), `nu` (control dimension), `ns` (physical
output dimension) and the output matrix `C` (`ns × nx`).  `C` is stored as
its list of `nx` columns (`Cc`), because the source reads it column by
column (`self.C[:, i]`).  A linearization block list `A_lst` is a list of
`N` matrices, each stored as its list of `nx` columns of height `nx`;
`B_lst` likewise with `nu` columns of height `nx`. -/

/-- `construct_constraint_matrix_`: the stacked OSQP constraint matrix
`vstack([Aeq, Aineq_u, Aineq_x])` as a list of dense columns. -/
def construct_constraint_matrix_ (nx nu ns : ℕ) (Cc : List (List ℚ))
    (A_lst B_lst : List (List (List ℚ))) : List (List ℚ) :=
  let N := A_lst.length
  let A_dyn := spVstack2 (spZeros nx ((N + 1) * nx))
    (spHstack [spBlockDiagU nx A_lst, spZeros (N * nx) nx])
  let Ax := addM (spDiag (-1) ((N + 1) * nx)) A_dyn
  let Bu := spVstack2 (spZeros nx (N * nu)) (spBlockDiagU nx B_lst)
  let Aeq := spHstack [Ax, Bu]
  let Aineq_u := spHstack [spZeros (N * nu) ((N + 1) * nx), spDiag 1 (N * nu)]
  let Aineq_x := spHstack [spKronEye (N + 1) ns Cc,
    spZeros ((N + 1) * ns) (N * nu)]
  spVstack2 (spVstack2 Aeq Aineq_u) Aineq_x

/-- `C_data[i]`: the nonzero entries of column `i` of `C`. -/
def cDataOf (Cc : List (List ℚ)) : List (List ℚ) := Cc.map nzs

/-- The per-column data segments contributed by the state variables of one
horizon stage `t < N`: `[-1] ++ A_lst[t][:, i] ++ C_data[i]`. -/
def stateSegsBlock (At cd : List (List ℚ)) : List (List ℚ) :=
  List.zipWith (fun a c => -1 :: (a ++ c)) At cd

/-- Data segments of all `N` state stages. -/
def stateSegs (A_lst : List (List (List ℚ))) (cd : List (List ℚ)) :
    List (List ℚ) :=
  (A_lst.map (fun At => stateSegsBlock At cd)).flatten

/-- Data segments of the terminal stage `t = N`: `[-1] ++ C_data[i]`. -/
def termSegs (cd : List (List ℚ)) : List (List ℚ) :=
  cd.map (fun c => -1 :: c)

/-- Data segments of the input variables: `B_lst[t][:, i] ++ [1]`. -/
def inputSegs (B_lst : List (List (List ℚ))) : List (List ℚ) :=
  (B_lst.map (fun Bt => Bt.map (fun b => b ++ [1]))).flatten

/-- The flat `_osqp_A_data` array built by
`construct_constraint_matrix_data_`. -/
def construct_constraint_matrix_data_ (Cc : List (List ℚ))
    (A_lst B_lst : List (List (List ℚ))) : List ℚ :=
  (stateSegs A_lst (cDataOf Cc) ++ termSegs (cDataOf Cc) ++
    inputSegs B_lst).flatten

/-- The `A_inds` index ranges for the columns of one stage: for each column
(paired with its `C_data` entry), `arange(start, start + nx)`, advancing
`start` by `nx + 1 + len(C_data[i])`.  Returns the index list and the final
`start`. -/
def aIndsCols (nx start : ℕ) : List (List ℚ) → List ℕ × ℕ
  | [] => ([], start)
  | c :: cs =>
      let r := aIndsCols nx (start + nx + 1 + c.length) cs
      ((List.range nx).map (fun j => start + j) ++ r.1, r.2)

/-- `A_inds` over all `N` stages (the outer `for t in range(N)` loop). -/
def aIndsBlocks (nx : ℕ) (cd : List (List ℚ)) (start : ℕ) :
    ℕ → List ℕ × ℕ
  | 0 => ([], start)
  | n + 1 =>
      let r1 := aIndsCols nx start cd
      let r2 := aIndsBlocks nx cd r1.2 n
      (r1.1 ++ r2.1, r2.2)

/-- `_osqp_A_data_A_inds`: `start_ind_A` is initialised to 1. -/
def aInds (nx : ℕ) (cd : List (List ℚ)) (N : ℕ) : List ℕ :=
  (aIndsBlocks nx cd 1 N).1

/-- `B_inds` for `count` input columns with uniform stride `nx + 1`. -/
def bIndsCount (nx : ℕ) (start : ℕ) : ℕ → List ℕ
  | 0 => []
  | k + 1 =>
      (List.range nx).map (fun j => start + j) ++
        bIndsCount nx (start + nx + 1) k

/-- `_osqp_A_data_B_inds`:
`start_ind_B = start_ind_A + nx + nnz(C) - 1` after the state loop. -/
def bInds (nx nu : ℕ) (cd : List (List ℚ)) (N : ℕ) : List ℕ :=
  bIndsCount nx ((aIndsBlocks nx cd 1 N).2 + nx +
    ((cd.map List.length).sum) - 1) (N * nu)

/-- `np.hstack(A_lst).flatten(order='F')` for a block list stored as lists
of columns: all columns in order, flattened. -/
def flattenBlocksF (lst : List (List (List ℚ))) : List ℚ :=
  lst.flatten.flatten

/-- `update_constraint_matrix_data_`: overwrite the saved data array at the
precomputed `A_inds` and `B_inds` with the new blocks. -/
def update_constraint_matrix_data_ (data : List ℚ) (ainds binds : List ℕ)
    (A_lst B_lst : List (List (List ℚ))) : List ℚ :=
  writeAt (writeAt data ainds (flattenBlocksF A_lst)) binds
    (flattenBlocksF B_lst)

/-! ## Generic helper lemmas for the sparse combinators -/

theorem zipWith_ext {α β γ : Type} (f g : α → β → γ) (xs : List α)
    (ys : List β) (h : ∀ x y, f x y = g x y) :
    List.zipWith f xs ys = List.zipWith g xs ys := by
  have : f = g := funext (fun x => funext (fun y => h x y))
  rw [this]

theorem zipWith_replicate_right {α β γ : Type} (f : α → β → γ) (xs : List α)
    (c : β) : List.zipWith f xs (List.replicate xs.length c) =
      xs.map (fun x => f x c) := by
  induction xs with
  | nil => rfl
  | cons a t ih => simp [List.replicate_succ, ih]

theorem zipWith_replicate_left {α β γ : Type} (f : α → β → γ) (ys : List β)
    (c : α) : List.zipWith f (List.replicate ys.length c) ys =
      ys.map (fun y => f c y) := by
  induction ys with
  | nil => rfl
  | cons a t ih => simp [List.replicate_succ, ih]

theorem addL_zero_right (x : List ℚ) :
    addL x (List.replicate x.length 0) = x := by
  have := zipWith_replicate_right (· + ·) x (0 : ℚ)
  simpa [addL] using this

theorem addL_zero_left (x : List ℚ) :
    addL (List.replicate x.length 0) x = x := by
  have := zipWith_replicate_left (· + ·) x (0 : ℚ)
  simpa [addL] using this

theorem addL_append (a b c d : List ℚ) (h : a.length = c.length) :
    addL (a ++ b) (c ++ d) = addL a c ++ addL b d := by
  simp [addL, List.zipWith_append _ _ _ _ _ h]

theorem replicate_zero_append (a b : ℕ) :
    List.replicate a (0 : ℚ) ++ List.replicate b 0 =
      List.replicate (a + b) 0 := by
  rw [← List.replicate_add]

theorem length_spDiag (v : ℚ) (n : ℕ) : (spDiag v n).length = n := by
  simp [spDiag]

theorem length_spDiagCol (v : ℚ) (n i : ℕ) : (spDiagCol v n i).length = n := by
  simp [spDiagCol]

theorem length_spZeros (r c : ℕ) : (spZeros r c).length = c := by
  simp [spZeros]

theorem spDiagCol_lo (v : ℚ) (a b i : ℕ) (h : i < a) :
    spDiagCol v (a + b) i = spDiagCol v a i ++ List.replicate b 0 := by
  unfold spDiagCol
  rw [List.range_add, List.map_append, List.map_map]
  congr 1
  refine List.eq_replicate_iff.2 ⟨by simp, ?_⟩
  intro x hx
  rcases List.mem_map.1 hx with ⟨j, hj, rfl⟩
  have hne : a + j ≠ i := by omega
  simp [Function.comp, hne]

theorem spDiagCol_hi (v : ℚ) (a b j : ℕ) :
    spDiagCol v (a + b) (a + j) = List.replicate a 0 ++ spDiagCol v b j := by
  unfold spDiagCol
  rw [List.range_add, List.map_append, List.map_map]
  congr 1
  · refine List.eq_replicate_iff.2 ⟨by simp, ?_⟩
    intro x hx
    rcases List.mem_map.1 hx with ⟨i, hi, rfl⟩
    have hia : i < a := List.mem_range.1 hi
    have hne : i ≠ a + j := by omega
    simp [hne]
  · apply List.map_congr_left
    intro i _
    have hiff : a + i = a + j ↔ i = j := by omega
    simp [Function.comp, hiff]

theorem spDiag_split (v : ℚ) (a b : ℕ) :
    spDiag v (a + b) =
      (spDiag v a).map (fun col => col ++ List.replicate b 0) ++
        (spDiag v b).map (fun col => List.replicate a 0 ++ col) := by
  unfold spDiag
  rw [List.range_add, List.map_append]
  simp only [List.map_map]
  congr 1
  · apply List.map_congr_left
    intro i hi
    simpa [Function.comp] using spDiagCol_lo v a b i (List.mem_range.1 hi)
  · apply List.map_congr_left
    intro j _
    simpa [Function.comp] using spDiagCol_hi v a b j

theorem spDiag_one (v : ℚ) : spDiag v 1 = [[v]] := rfl

/-! ## Bookkeeping lemmas for the manual data construction -/

/-- Total data length contributed per stage by the state columns. -/
def segSum (nx : ℕ) (cd : List (List ℚ)) : ℕ :=
  (cd.map (fun c => nx + 1 + c.length)).sum

theorem aIndsCols_fst_shift (nx s k : ℕ) (cd : List (List ℚ)) :
    (aIndsCols nx (s + k) cd).1 =
      ((aIndsCols nx s cd).1).map (fun i => i + k) := by
  induction cd generalizing s with
  | nil => rfl
  | cons c cs ih =>
      simp only [aIndsCols, List.map_append, List.map_map]
      congr 1
      · apply List.map_congr_left
        intro j _
        simp [Function.comp]
        omega
      · have harg : s + k + nx + 1 + c.length = (s + nx + 1 + c.length) + k := by
          omega
        rw [harg, ih]

theorem aIndsCols_snd (nx s : ℕ) (cd : List (List ℚ)) :
    (aIndsCols nx s cd).2 = s + segSum nx cd := by
  induction cd generalizing s with
  | nil => simp [aIndsCols, segSum]
  | cons c cs ih =>
      simp only [aIndsCols, segSum, List.map_cons, List.sum_cons] at ih ⊢
      rw [ih]
      omega

theorem aIndsBlocks_fst_shift (nx s k : ℕ) (cd : List (List ℚ)) (n : ℕ) :
    (aIndsBlocks nx cd (s + k) n).1 =
      ((aIndsBlocks nx cd s n).1).map (fun i => i + k) := by
  induction n generalizing s with
  | zero => rfl
  | succ m ih =>
      simp only [aIndsBlocks, List.map_append]
      congr 1
      · exact aIndsCols_fst_shift nx s k cd
      · rw [aIndsCols_snd, aIndsCols_snd]
        have harg : s + k + segSum nx cd = (s + segSum nx cd) + k := by omega
        rw [harg, ih]

theorem aIndsBlocks_snd (nx s : ℕ) (cd : List (List ℚ)) (n : ℕ) :
    (aIndsBlocks nx cd s n).2 = s + n * segSum nx cd := by
  induction n generalizing s with
  | zero => simp [aIndsBlocks]
  | succ m ih =>
      simp only [aIndsBlocks]
      rw [ih, aIndsCols_snd]
      ring

theorem bIndsCount_shift (nx s k : ℕ) (n : ℕ) :
    bIndsCount nx (s + k) n = (bIndsCount nx s n).map (fun i => i + k) := by
  induction n generalizing s with
  | zero => rfl
  | succ m ih =>
      simp only [bIndsCount, List.map_append, List.map_map]
      congr 1
      · apply List.map_congr_left
        intro j _
        simp [Function.comp]
        omega
      · have harg : s + k + nx + 1 = (s + nx + 1) + k := by omega
        rw [harg, ih]

theorem length_aIndsCols_fst (nx s : ℕ) (cd : List (List ℚ)) :
    (aIndsCols nx s cd).1.length = cd.length * nx := by
  induction cd generalizing s with
  | nil => simp [aIndsCols]
  | cons c cs ih =>
      simp only [aIndsCols, List.length_append, List.length_map,
        List.length_range, List.length_cons, ih]
      ring

theorem length_flatten_stateSegsBlock (nx : ℕ) (At cd : List (List ℚ))
    (h : At.length = cd.length) (hc : ∀ a ∈ At, a.length = nx) :
    (stateSegsBlock At cd).flatten.length = segSum nx cd := by
  induction cd generalizing At with
  | nil =>
      cases At with
      | nil => rfl
      | cons x xs => simp at h
  | cons c cs ih =>
      cases At with
      | nil => simp at h
      | cons a t =>
          simp only [stateSegsBlock, List.zipWith_cons_cons, List.flatten_cons,
            List.length_append, List.length_cons, segSum, List.map_cons,
            List.sum_cons]
          have ha : a.length = nx := hc a (by simp)
          have ht : ∀ x ∈ t, x.length = nx := fun x hx => hc x (by simp [hx])
          have hrec := ih t (by simpa using h) ht
          simp only [stateSegsBlock, segSum] at hrec
          omega

theorem length_flatten_block (nx : ℕ) (b : List (List ℚ))
    (hc : ∀ a ∈ b, a.length = nx) : b.flatten.length = b.length * nx := by
  induction b with
  | nil => simp
  | cons a t ih =>
      simp only [List.flatten_cons, List.length_append, List.length_cons,
        hc a (by simp), ih (fun x hx => hc x (by simp [hx]))]
      ring

theorem length_flatten_stateSegs (nx : ℕ) (A_lst : List (List (List ℚ)))
    (cd : List (List ℚ)) (hsh : ∀ b ∈ A_lst, b.length = cd.length)
    (hc : ∀ b ∈ A_lst, ∀ a ∈ b, a.length = nx) :
    (stateSegs A_lst cd).flatten.length = A_lst.length * segSum nx cd := by
  induction A_lst with
  | nil => simp [stateSegs]
  | cons b t ih =>
      simp only [stateSegs, List.map_cons, List.flatten_cons,
        List.flatten_append, List.length_append, List.length_cons]
      rw [length_flatten_stateSegsBlock nx b cd (hsh b (by simp))
        (hc b (by simp))]
      have := ih (fun x hx => hsh x (by simp [hx]))
        (fun x hx => hc x (by simp [hx]))
      simp only [stateSegs] at this
      rw [this]
      ring

theorem length_flatten_termSegs (cd : List (List ℚ)) :
    (termSegs cd).flatten.length =
      cd.length + (cd.map List.length).sum := by
  induction cd with
  | nil => rfl
  | cons c cs ih =>
      simp only [termSegs, List.map_cons, List.flatten_cons, List.sum_cons,
        List.length_append, List.length_cons] at ih ⊢
      rw [ih]
      omega

/-! ## The in-place update reproduces the from-scratch data array -/

/-- Writing a fresh `A` column into the saved segment of one state column
replaces the old one. -/
theorem writeHead (nx : ℕ) (a0 a1 c : List ℚ) (ha0 : a0.length = nx)
    (ha1 : a1.length = nx) :
    writeAt (-1 :: (a0 ++ c)) ((List.range nx).map (fun j => 1 + j)) a1 =
      -1 :: (a1 ++ c) := by
  have h1 : (List.range nx).map (fun j => 1 + j) =
      (List.range nx).map (fun j => j + ([(-1 : ℚ)]).length) := by
    apply List.map_congr_left
    intro j _
    simp
    omega
  rw [h1]
  have h2 := writeAt_shift [(-1 : ℚ)] (a0 ++ c) (List.range nx) a1
  rw [List.singleton_append] at h2
  rw [h2, List.singleton_append]
  congr 1
  rw [← ha1]
  exact writeAt_range_block a0 a1 c (by rw [ha0, ha1])

theorem stateBlockWrite (nx : ℕ) (At0 At1 cd : List (List ℚ)) (tail : List ℚ)
    (h0 : At0.length = cd.length) (h1 : At1.length = cd.length)
    (hc0 : ∀ a ∈ At0, a.length = nx) (hc1 : ∀ a ∈ At1, a.length = nx) :
    writeAt ((stateSegsBlock At0 cd).flatten ++ tail) ((aIndsCols nx 1 cd).1)
      At1.flatten = (stateSegsBlock At1 cd).flatten ++ tail := by
  induction cd generalizing At0 At1 tail with
  | nil =>
      cases At0 with
      | nil =>
          cases At1 with
          | nil => rfl
          | cons x xs => simp at h1
      | cons x xs => simp at h0
  | cons c cs ih =>
      cases At0 with
      | nil => simp at h0
      | cons a0 t0 =>
          cases At1 with
          | nil => simp at h1
          | cons a1 t1 =>
              have ha0 : a0.length = nx := hc0 a0 (by simp)
              have ha1 : a1.length = nx := hc1 a1 (by simp)
              have hseg0 : stateSegsBlock (a0 :: t0) (c :: cs) =
                  (-1 :: (a0 ++ c)) :: stateSegsBlock t0 cs := rfl
              have hseg1 : stateSegsBlock (a1 :: t1) (c :: cs) =
                  (-1 :: (a1 ++ c)) :: stateSegsBlock t1 cs := rfl
              have hinds : (aIndsCols nx 1 (c :: cs)).1 =
                  (List.range nx).map (fun j => 1 + j) ++
                    (aIndsCols nx (1 + nx + 1 + c.length) cs).1 := rfl
              rw [hseg0, hseg1, hinds]
              simp only [List.flatten_cons, List.append_assoc]
              rw [writeAt_append _ _ _ a1 t1.flatten (by simp [ha1])]
              have hleft : ∀ i ∈ (List.range nx).map (fun j => 1 + j),
                  i < (-1 :: (a0 ++ c) : List ℚ).length := by
                intro i hi
                rcases List.mem_map.1 hi with ⟨j, hj, rfl⟩
                have := List.mem_range.1 hj
                simp
                omega
              rw [writeAt_left _ _ _ _ hleft, writeHead nx a0 a1 c ha0 ha1]
              have hshift : (aIndsCols nx (1 + nx + 1 + c.length) cs).1 =
                  ((aIndsCols nx 1 cs).1).map
                    (fun i => i + (-1 :: (a1 ++ c) : List ℚ).length) := by
                have e1 : 1 + nx + 1 + c.length = 1 + (nx + 1 + c.length) := by
                  omega
                rw [e1, aIndsCols_fst_shift]
                apply List.map_congr_left
                intro i _
                simp [ha1]
                omega
              rw [hshift, writeAt_shift, ih t0 t1 tail (by simpa using h0)
                (by simpa using h1) (fun x hx => hc0 x (by simp [hx]))
                (fun x hx => hc1 x (by simp [hx]))]

theorem stateBlocksWrite (nx : ℕ) (cd : List (List ℚ))
    (A0 A1 : List (List (List ℚ))) (tail : List ℚ)
    (hN : A0.length = A1.length)
    (hsh0 : ∀ b ∈ A0, b.length = cd.length)
    (hsh1 : ∀ b ∈ A1, b.length = cd.length)
    (hc0 : ∀ b ∈ A0, ∀ a ∈ b, a.length = nx)
    (hc1 : ∀ b ∈ A1, ∀ a ∈ b, a.length = nx) :
    writeAt ((stateSegs A0 cd).flatten ++ tail)
      ((aIndsBlocks nx cd 1 A0.length).1) (flattenBlocksF A1) =
      (stateSegs A1 cd).flatten ++ tail := by
  induction A0 generalizing A1 tail with
  | nil =>
      cases A1 with
      | nil => rfl
      | cons x xs => simp at hN
  | cons b0 r0 ih =>
      cases A1 with
      | nil => simp at hN
      | cons b1 r1 =>
          have hb0 : b0.length = cd.length := hsh0 b0 (by simp)
          have hb1 : b1.length = cd.length := hsh1 b1 (by simp)
          have hcb0 : ∀ a ∈ b0, a.length = nx := hc0 b0 (by simp)
          have hcb1 : ∀ a ∈ b1, a.length = nx := hc1 b1 (by simp)
          have hsegs0 : stateSegs (b0 :: r0) cd =
              stateSegsBlock b0 cd ++ stateSegs r0 cd := by
            simp [stateSegs]
          have hsegs1 : stateSegs (b1 :: r1) cd =
              stateSegsBlock b1 cd ++ stateSegs r1 cd := by
            simp [stateSegs]
          have hinds : (aIndsBlocks nx cd 1 (b0 :: r0).length).1 =
              (aIndsCols nx 1 cd).1 ++
                (aIndsBlocks nx cd (aIndsCols nx 1 cd).2 r0.length).1 := rfl
          have hvals : flattenBlocksF (b1 :: r1) =
              b1.flatten ++ flattenBlocksF r1 := by
            simp [flattenBlocksF]
          rw [hsegs0, hsegs1, hinds, hvals, List.flatten_append,
            List.flatten_append, List.append_assoc, List.append_assoc]
          rw [writeAt_append _ _ _ b1.flatten (flattenBlocksF r1)
            (by rw [length_aIndsCols_fst,
                length_flatten_block nx b1 hcb1, hb1])]
          rw [stateBlockWrite nx b0 b1 cd _ hb0 hb1 hcb0 hcb1]
          have hshift : (aIndsBlocks nx cd (aIndsCols nx 1 cd).2 r0.length).1 =
              ((aIndsBlocks nx cd 1 r0.length).1).map
                (fun i => i + (stateSegsBlock b1 cd).flatten.length) := by
            rw [aIndsCols_snd, length_flatten_stateSegsBlock nx b1 cd hb1 hcb1,
              aIndsBlocks_fst_shift]
          rw [hshift, writeAt_shift,
            ih r1 tail (by simpa using hN)
              (fun x hx => hsh0 x (by simp [hx]))
              (fun x hx => hsh1 x (by simp [hx]))
              (fun x hx => hc0 x (by simp [hx]))
              (fun x hx => hc1 x (by simp [hx]))]

/-- Flattening a per-block map of a per-column map. -/
theorem flatten_map_map {f : List ℚ → List ℚ}
    (L : List (List (List ℚ))) :
    (L.map (fun b => b.map f)).flatten = L.flatten.map f := by
  induction L with
  | nil => rfl
  | cons b t ih =>
      rw [List.map_cons, List.flatten_cons, List.flatten_cons,
        List.map_append, ih]

theorem inputColsWrite (nx : ℕ) (cols0 cols1 : List (List ℚ))
    (tail : List ℚ) (hN : cols0.length = cols1.length)
    (hc0 : ∀ a ∈ cols0, a.length = nx) (hc1 : ∀ a ∈ cols1, a.length = nx) :
    writeAt ((cols0.map (fun b => b ++ [1])).flatten ++ tail)
      (bIndsCount nx 0 cols0.length) cols1.flatten =
      (cols1.map (fun b => b ++ [1])).flatten ++ tail := by
  induction cols0 generalizing cols1 tail with
  | nil =>
      cases cols1 with
      | nil => rfl
      | cons x xs => simp at hN
  | cons a0 t0 ih =>
      cases cols1 with
      | nil => simp at hN
      | cons a1 t1 =>
          have ha0 : a0.length = nx := hc0 a0 (by simp)
          have ha1 : a1.length = nx := hc1 a1 (by simp)
          have hinds : bIndsCount nx 0 (a0 :: t0).length =
              (List.range nx).map (fun j => 0 + j) ++
                bIndsCount nx (0 + nx + 1) t0.length := rfl
          have hzero : (List.range nx).map (fun j => 0 + j) = List.range nx := by
            simp
          have hleft : ∀ i ∈ List.range nx,
              i < (a0 ++ [(1 : ℚ)]).length := by
            intro i hi
            have := List.mem_range.1 hi
            simp [ha0]
            omega
          have hhead : writeAt (a0 ++ [(1 : ℚ)]) (List.range nx) a1 =
              a1 ++ [1] := by
            rw [show List.range nx = List.range a1.length from by rw [ha1]]
            exact writeAt_range_block a0 a1 [1] (by rw [ha0, ha1])
          have hshift : bIndsCount nx (0 + nx + 1) t0.length =
              (bIndsCount nx 0 t0.length).map
                (fun i => i + (a1 ++ [(1 : ℚ)]).length) := by
            have e1 : 0 + nx + 1 = 0 + (nx + 1) := by omega
            rw [e1, bIndsCount_shift]
            apply List.map_congr_left
            intro i _
            simp [ha1]
          rw [hinds]
          simp only [List.map_cons, List.flatten_cons]
          rw [List.append_assoc,
            writeAt_append _ _ _ a1 t1.flatten (by simp [ha1]),
            hzero, writeAt_left _ _ _ _ hleft, hhead, hshift, writeAt_shift,
            ih t1 tail (by simpa using hN)
              (fun x hx => hc0 x (by simp [hx]))
              (fun x hx => hc1 x (by simp [hx]))]
          simp [List.append_assoc]

theorem length_flatten_uniform {α : Type} (L : List (List α)) (k : ℕ)
    (h : ∀ b ∈ L, b.length = k) : L.flatten.length = L.length * k := by
  induction L with
  | nil => simp
  | cons b t ih =>
      simp only [List.flatten_cons, List.length_append, List.length_cons,
        h b (by simp), ih (fun x hx => h x (by simp [hx]))]
      ring

theorem length_cDataOf (Cc : List (List ℚ)) :
    (cDataOf Cc).length = Cc.length := by
  simp [cDataOf]

/-- Refreshing the saved data array in place through the precomputed index
maps produces exactly the data array rebuilt from scratch from the new
linearization blocks. -/
theorem update_eq_rebuild (nx nu : ℕ) (Cc : List (List ℚ))
    (A0 A1 B0 B1 : List (List (List ℚ)))
    (hCc : Cc.length = nx)
    (hNA : A1.length = A0.length) (hNB0 : B0.length = A0.length)
    (hNB1 : B1.length = A0.length)
    (hshA0 : ∀ b ∈ A0, b.length = nx) (hshA1 : ∀ b ∈ A1, b.length = nx)
    (hshB0 : ∀ b ∈ B0, b.length = nu) (hshB1 : ∀ b ∈ B1, b.length = nu)
    (hcA0 : ∀ b ∈ A0, ∀ a ∈ b, a.length = nx)
    (hcA1 : ∀ b ∈ A1, ∀ a ∈ b, a.length = nx)
    (hcB0 : ∀ b ∈ B0, ∀ a ∈ b, a.length = nx)
    (hcB1 : ∀ b ∈ B1, ∀ a ∈ b, a.length = nx) :
    update_constraint_matrix_data_
      (construct_constraint_matrix_data_ Cc A0 B0)
      (aInds nx (cDataOf Cc) A0.length)
      (bInds nx nu (cDataOf Cc) A0.length) A1 B1 =
      construct_constraint_matrix_data_ Cc A1 B1 := by
  have hcdlen : (cDataOf Cc).length = nx := by rw [length_cDataOf, hCc]
  have hshA0c : ∀ b ∈ A0, b.length = (cDataOf Cc).length := fun b hb => by
    rw [hcdlen]; exact hshA0 b hb
  have hshA1c : ∀ b ∈ A1, b.length = (cDataOf Cc).length := fun b hb => by
    rw [hcdlen]; exact hshA1 b hb
  unfold update_constraint_matrix_data_ construct_constraint_matrix_data_
  rw [List.flatten_append, List.flatten_append, List.append_assoc,
    List.append_assoc,
    show aInds nx (cDataOf Cc) A0.length =
      (aIndsBlocks nx (cDataOf Cc) 1 A0.length).1 from rfl,
    stateBlocksWrite nx (cDataOf Cc) A0 A1
      ((termSegs (cDataOf Cc)).flatten ++ (inputSegs B0).flatten)
      hNA.symm hshA0c hshA1c hcA0 hcA1]
  have hlenState : (stateSegs A1 (cDataOf Cc)).flatten.length =
      A0.length * segSum nx (cDataOf Cc) := by
    rw [length_flatten_stateSegs nx A1 _ hshA1c hcA1, hNA]
  have hlenTerm : (termSegs (cDataOf Cc)).flatten.length =
      nx + ((cDataOf Cc).map List.length).sum := by
    rw [length_flatten_termSegs, hcdlen]
  have hflatB0 : B0.flatten.length = A0.length * nu := by
    rw [length_flatten_uniform B0 nu hshB0, hNB0]
  have hb : bInds nx nu (cDataOf Cc) A0.length =
      (bIndsCount nx 0 B0.flatten.length).map
        (fun i => i + ((stateSegs A1 (cDataOf Cc)).flatten ++
          (termSegs (cDataOf Cc)).flatten).length) := by
    unfold bInds
    rw [aIndsBlocks_snd, ← hflatB0]
    have e0 : 1 + A0.length * segSum nx (cDataOf Cc) + nx +
        ((cDataOf Cc).map List.length).sum - 1 =
        0 + ((stateSegs A1 (cDataOf Cc)).flatten ++
          (termSegs (cDataOf Cc)).flatten).length := by
      rw [List.length_append, hlenState, hlenTerm]
      omega
    rw [e0, bIndsCount_shift]
  have hinput0 : (inputSegs B0).flatten =
      (B0.flatten.map (fun b => b ++ [1])).flatten := by
    unfold inputSegs
    rw [flatten_map_map]
  have hinput1 : (inputSegs B1).flatten =
      (B1.flatten.map (fun b => b ++ [1])).flatten := by
    unfold inputSegs
    rw [flatten_map_map]
  have hcolsB0 : ∀ a ∈ B0.flatten, a.length = nx := by
    intro a ha
    rcases List.mem_flatten.1 ha with ⟨b, hb1, hab⟩
    exact hcB0 b hb1 a hab
  have hcolsB1 : ∀ a ∈ B1.flatten, a.length = nx := by
    intro a ha
    rcases List.mem_flatten.1 ha with ⟨b, hb1, hab⟩
    exact hcB1 b hb1 a hab
  have hlenBB : B0.flatten.length = B1.flatten.length := by
    rw [length_flatten_uniform B0 nu hshB0,
      length_flatten_uniform B1 nu hshB1, hNB0, hNB1]
  have hstep2 := inputColsWrite nx B0.flatten B1.flatten [] hlenBB
    hcolsB0 hcolsB1
  rw [List.append_nil, List.append_nil] at hstep2
  rw [hb, ← List.append_assoc, hinput0, writeAt_shift,
    show flattenBlocksF B1 = B1.flatten.flatten from rfl, hstep2,
    List.flatten_append, List.flatten_append, hinput1, List.append_assoc]

/-! ## The manual data array equals the CSC data of the built matrix -/

theorem nzs_pad_right (x : List ℚ) (k : ℕ) :
    nzs (x ++ List.replicate k 0) = nzs x := by
  rw [nzs_append, nzs_replicate_zero, List.append_nil]

theorem nzs_pad_left (x : List ℚ) (k : ℕ) :
    nzs (List.replicate k 0 ++ x) = nzs x := by
  rw [nzs_append, nzs_replicate_zero, List.nil_append]

theorem zipWith_congr_mem {α β γ : Type} (f g : α → β → γ) (xs : List α)
    (ys : List β) (h : ∀ x ∈ xs, ∀ y ∈ ys, f x y = g x y) :
    List.zipWith f xs ys = List.zipWith g xs ys := by
  induction xs generalizing ys with
  | nil => rfl
  | cons x xt ih =>
      cases ys with
      | nil => rfl
      | cons y yt =>
          rw [List.zipWith_cons_cons, List.zipWith_cons_cons,
            h x (by simp) y (by simp),
            ih yt (fun a ha b hb => h a (by simp [ha]) b (by simp [hb]))]

theorem map_nzs_zipWith (P Q : List (List ℚ)) :
    (List.zipWith (· ++ ·) P Q).map nzs =
      List.zipWith (fun p q => nzs p ++ nzs q) P Q := by
  induction P generalizing Q with
  | nil => rfl
  | cons p pt ih =>
      cases Q with
      | nil => rfl
      | cons q qt =>
          rw [List.zipWith_cons_cons, List.map_cons, nzs_append,
            List.zipWith_cons_cons, ih]

theorem length_spBlockDiagU (nr : ℕ) (bs : List (List (List ℚ))) :
    (spBlockDiagU nr bs).length = (bs.map List.length).sum := by
  induction bs with
  | nil => rfl
  | cons b t ih => simp [spBlockDiagU, ih]

theorem length_spBlockDiagU_uniform (nr k : ℕ) (bs : List (List (List ℚ)))
    (h : ∀ b ∈ bs, b.length = k) :
    (spBlockDiagU nr bs).length = bs.length * k := by
  rw [length_spBlockDiagU]
  induction bs with
  | nil => simp
  | cons b t ih =>
      simp only [List.map_cons, List.sum_cons, List.length_cons,
        h b (by simp), ih (fun x hx => h x (by simp [hx]))]
      ring

theorem length_spKronEye (k nr : ℕ) (c : List (List ℚ)) :
    (spKronEye k nr c).length = k * c.length := by
  unfold spKronEye
  rw [length_spBlockDiagU_uniform nr c.length _ (by
    intro b hb
    rw [List.eq_of_mem_replicate hb])]
  simp

theorem spKronEye_succ (k nr : ℕ) (c : List (List ℚ)) :
    spKronEye (k + 1) nr c =
      c.map (fun col => col ++ List.replicate (k * nr) 0) ++
        (spKronEye k nr c).map (fun col => List.replicate nr 0 ++ col) := by
  unfold spKronEye
  rw [List.replicate_succ]
  show spBlockDiagU nr (c :: List.replicate k c) = _
  rw [spBlockDiagU]
  simp

/-- Stacking a zero block on top of a matrix prefixes every column with
zeros. -/
theorem spVstack2_zeros_top (k : ℕ) (X : List (List ℚ)) :
    spVstack2 (spZeros k X.length) X =
      X.map (fun col => List.replicate k 0 ++ col) := by
  unfold spVstack2 spZeros
  exact zipWith_replicate_left (· ++ ·) X (List.replicate k 0)

/-- Stacking a zero block below a matrix suffixes every column with zeros. -/
theorem spVstack2_zeros_bot (k : ℕ) (X : List (List ℚ)) :
    spVstack2 X (spZeros k X.length) =
      X.map (fun col => col ++ List.replicate k 0) := by
  unfold spVstack2 spZeros
  exact zipWith_replicate_right (· ++ ·) X (List.replicate k 0)

theorem spDiag_mem_length (v : ℚ) (n : ℕ) (col : List ℚ)
    (h : col ∈ spDiag v n) : col.length = n := by
  rcases List.mem_map.1 h with ⟨i, _, rfl⟩
  exact length_spDiagCol v n i

theorem spDiag_peel (v : ℚ) (M : ℕ) :
    spDiag v (1 + M) =
      ([v] ++ List.replicate M 0) ::
        (spDiag v M).map (fun col => [0] ++ col) := by
  rw [spDiag_split v 1 M]
  rfl

theorem nzs_single_neg_one : nzs [(-1 : ℚ)] = [(-1 : ℚ)] := by
  simp [nzs]

theorem nzs_single_one : nzs [(1 : ℚ)] = [(1 : ℚ)] := by
  simp [nzs]

/-- The terminal-stage columns: `-eye` entry above the output-matrix
column, with zero padding, store `[-1]` then the nonzeros of `C[:, i]`. -/
theorem termColsNzs (Ccols : List (List ℚ)) (l q : ℕ) :
    List.zipWith (fun a k => nzs a ++ nzs k)
      ((spDiag (-1) Ccols.length).map (fun d => List.replicate l 0 ++ d))
      (Ccols.map (fun c => c ++ List.replicate q 0)) =
      Ccols.map (fun c => -1 :: nzs c) := by
  induction Ccols generalizing l with
  | nil => rfl
  | cons c cs ih =>
      rw [List.length_cons, Nat.add_comm cs.length 1, spDiag_peel,
        List.map_cons, List.map_cons, List.map_cons,
        List.zipWith_cons_cons]
      congr 1
      · rw [nzs_pad_left, nzs_pad_right, nzs_append, nzs_replicate_zero,
          nzs_single_neg_one, List.append_nil, List.singleton_append]
      · rw [List.map_map]
        have hcomp : ((fun d => List.replicate l 0 ++ d) ∘
            (fun col => [(0 : ℚ)] ++ col)) =
            (fun d => List.replicate (l + 1) 0 ++ d) := by
          funext d
          show List.replicate l 0 ++ ([0] ++ d) = List.replicate (l + 1) 0 ++ d
          rw [← List.append_assoc]
          congr 1
          rw [show ([(0 : ℚ)]) = List.replicate 1 0 from rfl,
            replicate_zero_append]
        rw [hcomp, ih (l + 1)]

/-- The state columns of a non-terminal stage: the `-eye` entry, then the
linearization column, then the output-matrix nonzeros. -/
theorem stageColsNzs (At Ccols : List (List ℚ)) (l m q : ℕ)
    (hlen : At.length = Ccols.length)
    (hnz : ∀ c ∈ At, ∀ x ∈ c, x ≠ 0) :
    List.zipWith (fun a k => nzs a ++ nzs k)
      (List.zipWith
        (fun d c => (List.replicate l 0 ++ d) ++ (c ++ List.replicate m 0))
        (spDiag (-1) At.length) At)
      (Ccols.map (fun c => c ++ List.replicate q 0)) =
      List.zipWith (fun a c => -1 :: (a ++ nzs c)) At Ccols := by
  induction At generalizing Ccols l with
  | nil => rfl
  | cons a t ih =>
      cases Ccols with
      | nil => simp at hlen
      | cons c cs =>
          rw [List.length_cons, Nat.add_comm t.length 1, spDiag_peel,
            List.map_cons, List.zipWith_cons_cons, List.zipWith_cons_cons,
            List.zipWith_cons_cons]
          congr 1
          · rw [nzs_append, nzs_pad_left, nzs_pad_right, nzs_single_neg_one,
              nzs_pad_right, nzs_of_all_ne_zero a (hnz a (by simp)),
              nzs_pad_right, List.append_assoc, List.singleton_append]
          · rw [List.zipWith_map_left]
            have hfn : List.zipWith
                (fun d c => (List.replicate l 0 ++ ([(0 : ℚ)] ++ d)) ++
                  (c ++ List.replicate m 0)) (spDiag (-1) t.length) t =
                List.zipWith
                  (fun d c => (List.replicate (l + 1) 0 ++ d) ++
                    (c ++ List.replicate m 0)) (spDiag (-1) t.length) t := by
              apply zipWith_ext
              intro d cc
              rw [← List.append_assoc (List.replicate l 0)]
              congr 2
              rw [show ([(0 : ℚ)]) = List.replicate 1 0 from rfl,
                replicate_zero_append]
            rw [hfn, ih cs (l + 1) (by simpa using hlen)
              (fun x hx => hnz x (by simp [hx]))]

/-- The input columns of one stage: the linearization column, then the
identity entry of the input-bound block. -/
theorem inputStageNzs (cols : List (List ℚ)) (l m q : ℕ)
    (hnz : ∀ c ∈ cols, ∀ x ∈ c, x ≠ 0) :
    List.zipWith (fun b e => nzs b ++ nzs e)
      (cols.map (fun c => c ++ List.replicate m 0))
      ((spDiag 1 cols.length).map
        (fun d => List.replicate l 0 ++ (d ++ List.replicate q 0))) =
      cols.map (fun c => c ++ [1]) := by
  induction cols generalizing l with
  | nil => rfl
  | cons c cs ih =>
      rw [List.length_cons, Nat.add_comm cs.length 1, spDiag_peel,
        List.map_cons, List.map_cons, List.map_cons,
        List.zipWith_cons_cons]
      congr 1
      · rw [nzs_pad_right, nzs_pad_left, nzs_pad_right, nzs_pad_right,
          nzs_single_one, nzs_of_all_ne_zero c (hnz c (by simp))]
      · rw [List.map_map]
        have hcomp : ((fun d => List.replicate l 0 ++
            (d ++ List.replicate q 0)) ∘ (fun col => [(0 : ℚ)] ++ col)) =
            (fun d => List.replicate (l + 1) 0 ++
              (d ++ List.replicate q 0)) := by
          funext d
          show List.replicate l 0 ++ (([0] ++ d) ++ List.replicate q 0) =
            List.replicate (l + 1) 0 ++ (d ++ List.replicate q 0)
          rw [List.append_assoc, ← List.append_assoc (List.replicate l 0)]
          congr 1
          rw [show ([(0 : ℚ)]) = List.replicate 1 0 from rfl,
            replicate_zero_append]
        rw [hcomp, ih (l + 1) (fun x hx => hnz x (by simp [hx]))]

theorem spHstack_two (X Y : List (List ℚ)) : spHstack [X, Y] = X ++ Y := by
  simp [spHstack]

theorem spZeros_split_rows (a b c : ℕ) :
    spZeros (a + b) c =
      (spZeros b c).map (fun col => List.replicate a 0 ++ col) := by
  unfold spZeros
  rw [List.map_replicate, replicate_zero_append]

theorem addM_map_front (k : ℕ) (X Y : List (List ℚ)) :
    addM (X.map (fun col => List.replicate k 0 ++ col))
      (Y.map (fun col => List.replicate k 0 ++ col)) =
      (addM X Y).map (fun col => List.replicate k 0 ++ col) := by
  unfold addM
  rw [List.zipWith_map_left, List.zipWith_map_right, List.map_zipWith]
  apply zipWith_ext
  intro x y
  rw [addL_append _ _ _ _ (by simp)]
  congr 1
  have := addL_zero_right (List.replicate k (0 : ℚ))
  simpa using this

/-- The input-variable columns of the stacked matrix store, per column, the
current `B` linearization column followed by the unit entry of the
input-bound identity block. -/
theorem inputBlocksNzs (nx nu : ℕ) (B : List (List (List ℚ)))
    (hsh : ∀ b ∈ B, b.length = nu)
    (hnz : ∀ b ∈ B, ∀ c ∈ b, ∀ x ∈ c, x ≠ 0) :
    List.zipWith (fun b e => nzs b ++ nzs e) (spBlockDiagU nx B)
      (spDiag 1 (B.length * nu)) = inputSegs B := by
  induction B with
  | nil => rfl
  | cons Bt Br ih =>
      have hBt : Bt.length = nu := hsh Bt (by simp)
      have e1 : (Bt :: Br).length * nu = nu + Br.length * nu := by
        simp [List.length_cons]
        ring
      rw [show spBlockDiagU nx (Bt :: Br) =
          Bt.map (fun col => col ++ List.replicate (Br.length * nx) 0) ++
            (spBlockDiagU nx Br).map
              (fun col => List.replicate nx 0 ++ col) from rfl,
        e1, spDiag_split 1 nu (Br.length * nu),
        List.zipWith_append _ _ _ _ _ (by simp [hBt, length_spDiag])]
      congr 1
      · have hmap : (spDiag 1 nu).map
            (fun col => col ++ List.replicate (Br.length * nu) 0) =
            (spDiag 1 Bt.length).map
              (fun d => List.replicate 0 0 ++
                (d ++ List.replicate (Br.length * nu) 0)) := by
          rw [hBt]
          apply List.map_congr_left
          intro d _
          simp
        rw [hmap, inputStageNzs Bt 0 (Br.length * nx) (Br.length * nu)
          (hnz Bt (by simp))]
      · rw [List.zipWith_map_left, List.zipWith_map_right]
        have hstrip : List.zipWith
            (fun b e => nzs (List.replicate nx 0 ++ b) ++
              nzs (List.replicate nu 0 ++ e))
            (spBlockDiagU nx Br) (spDiag 1 (Br.length * nu)) =
            List.zipWith (fun b e => nzs b ++ nzs e)
              (spBlockDiagU nx Br) (spDiag 1 (Br.length * nu)) := by
          apply zipWith_ext
          intro b e
          rw [nzs_pad_left, nzs_pad_left]
        rw [hstrip, ih (fun x hx => hsh x (by simp [hx]))
          (fun x hx => hnz x (by simp [hx]))]
        simp [inputSegs]

theorem zipWith_replicate_both {α β γ : Type} (f : α → β → γ) (n : ℕ)
    (a : α) (b : β) :
    List.zipWith f (List.replicate n a) (List.replicate n b) =
      List.replicate n (f a b) := by
  induction n with
  | zero => rfl
  | succ m ih => simp [List.replicate_succ, ih]

/-- The state-variable columns of the stacked matrix store, per column, the
`-1` of the shifted identity, the current `A` linearization column (absent
at the terminal stage), and the nonzeros of the output-matrix column. -/
theorem stateBlocksNzs (nx ns : ℕ) (Cc : List (List ℚ))
    (A : List (List (List ℚ)))
    (hCc : Cc.length = nx)
    (hsh : ∀ b ∈ A, b.length = nx)
    (hc : ∀ b ∈ A, ∀ a ∈ b, a.length = nx)
    (hnz : ∀ b ∈ A, ∀ c ∈ b, ∀ x ∈ c, x ≠ 0) :
    List.zipWith (fun a k => nzs a ++ nzs k)
      (addM (spDiag (-1) ((A.length + 1) * nx))
        (spVstack2 (spZeros nx ((A.length + 1) * nx))
          (spHstack [spBlockDiagU nx A, spZeros (A.length * nx) nx])))
      (spKronEye (A.length + 1) ns Cc) =
      stateSegs A (cDataOf Cc) ++ termSegs (cDataOf Cc) := by
  induction A with
  | nil =>
      have hvs : spVstack2 (spZeros nx
          ((List.length ([] : List (List (List ℚ))) + 1) * nx))
          (spHstack [spBlockDiagU nx [],
            spZeros (List.length ([] : List (List (List ℚ))) * nx) nx]) =
          List.replicate nx (List.replicate nx (0 : ℚ)) := by
        simp only [List.length_nil, Nat.zero_add, Nat.one_mul, Nat.zero_mul]
        rw [show spBlockDiagU nx ([] : List (List (List ℚ))) = [] from rfl,
          spHstack_two, List.nil_append]
        unfold spZeros spVstack2
        rw [zipWith_replicate_both]
        simp
      rw [hvs]
      have hadd : addM (spDiag (-1)
          ((List.length ([] : List (List (List ℚ))) + 1) * nx))
          (List.replicate nx (List.replicate nx (0 : ℚ))) =
          spDiag (-1) nx := by
        show addM (spDiag (-1) (1 * nx))
          (List.replicate nx (List.replicate nx (0 : ℚ))) = spDiag (-1) nx
        rw [Nat.one_mul]
        unfold addM
        rw [show List.replicate nx (List.replicate nx (0 : ℚ)) =
          List.replicate (spDiag (-1 : ℚ) nx).length
            (List.replicate nx (0 : ℚ)) from by rw [length_spDiag],
          zipWith_replicate_right]
        have : ∀ col ∈ spDiag (-1 : ℚ) nx,
            addL col (List.replicate nx 0) = col := by
          intro col hcol
          rw [show (List.replicate nx (0 : ℚ)) =
            List.replicate col.length 0 from by
              rw [spDiag_mem_length _ _ _ hcol]]
          exact addL_zero_right col
        rw [List.map_congr_left this]
        simp
      rw [hadd]
      have hkron : spKronEye
          (List.length ([] : List (List (List ℚ))) + 1) ns Cc =
          Cc.map (fun col => col ++ List.replicate (0 * ns) 0) := by
        show spKronEye (0 + 1) ns Cc = _
        rw [spKronEye_succ]
        show _ ++ (spBlockDiagU ns []).map _ = _
        simp [spBlockDiagU]
      rw [hkron]
      have hdiag : spDiag (-1 : ℚ) nx =
          (spDiag (-1) Cc.length).map (fun d => List.replicate 0 0 ++ d) := by
        rw [hCc]
        have : (fun d : List ℚ => List.replicate 0 (0 : ℚ) ++ d) =
            fun d => d := by
          funext d
          simp
        rw [this]
        simp
      rw [hdiag, termColsNzs Cc 0 (0 * ns)]
      show _ = [].flatten ++ termSegs (cDataOf Cc)
      rw [List.flatten_nil, List.nil_append]
      unfold termSegs cDataOf
      rw [List.map_map]
      rfl
  | cons At Ar ih =>
      have hAt : At.length = nx := hsh At (by simp)
      have hshr : ∀ b ∈ Ar, b.length = nx := fun b hb => hsh b (by simp [hb])
      have hcr : ∀ b ∈ Ar, ∀ a ∈ b, a.length = nx :=
        fun b hb => hc b (by simp [hb])
      have hnzr : ∀ b ∈ Ar, ∀ c ∈ b, ∀ x ∈ c, x ≠ 0 :=
        fun b hb => hnz b (by simp [hb])
      have hBDr : (spBlockDiagU nx Ar).length = Ar.length * nx :=
        length_spBlockDiagU_uniform nx nx Ar hshr
      -- the three top-level operands, in peeled form
      have e1 : ((At :: Ar).length + 1) * nx = nx + (Ar.length + 1) * nx := by
        simp [List.length_cons]
        ring
      have e2 : (At :: Ar).length * nx = nx + Ar.length * nx := by
        simp [List.length_cons]
        ring
      have hdiag : spDiag (-1 : ℚ) (((At :: Ar).length + 1) * nx) =
          (spDiag (-1) nx).map
            (fun col => col ++ List.replicate ((Ar.length + 1) * nx) 0) ++
          (spDiag (-1) ((Ar.length + 1) * nx)).map
            (fun col => List.replicate nx 0 ++ col) := by
        rw [e1, spDiag_split]
      have hlowr : spHstack [spBlockDiagU nx (At :: Ar),
          spZeros ((At :: Ar).length * nx) nx] =
          At.map (fun col => col ++ List.replicate (Ar.length * nx) 0) ++
            (spHstack [spBlockDiagU nx Ar,
              spZeros (Ar.length * nx) nx]).map
              (fun col => List.replicate nx 0 ++ col) := by
        rw [spHstack_two, spHstack_two,
          show spBlockDiagU nx (At :: Ar) =
            At.map (fun col => col ++ List.replicate (Ar.length * nx) 0) ++
              (spBlockDiagU nx Ar).map
                (fun col => List.replicate nx 0 ++ col) from rfl,
          e2, spZeros_split_rows, List.append_assoc, ← List.map_append]
      have hlenlow : (spHstack [spBlockDiagU nx Ar,
          spZeros (Ar.length * nx) nx]).length = (Ar.length + 1) * nx := by
        rw [spHstack_two, List.length_append, hBDr, length_spZeros]
        ring
      have hvsr : spVstack2 (spZeros nx ((Ar.length + 1) * nx))
          (spHstack [spBlockDiagU nx Ar, spZeros (Ar.length * nx) nx]) =
          (spHstack [spBlockDiagU nx Ar, spZeros (Ar.length * nx) nx]).map
            (fun col => List.replicate nx 0 ++ col) := by
        rw [show ((Ar.length + 1) * nx) = (spHstack [spBlockDiagU nx Ar,
          spZeros (Ar.length * nx) nx]).length from hlenlow.symm,
          spVstack2_zeros_top]
      have hlenlow2 : (At.map
          (fun col => col ++ List.replicate (Ar.length * nx) 0) ++
            (spHstack [spBlockDiagU nx Ar,
              spZeros (Ar.length * nx) nx]).map
              (fun col => List.replicate nx 0 ++ col)).length =
          ((At :: Ar).length + 1) * nx := by
        rw [List.length_append, List.length_map, List.length_map, hAt,
          hlenlow, e1]
      have hadyn : spVstack2 (spZeros nx (((At :: Ar).length + 1) * nx))
          (spHstack [spBlockDiagU nx (At :: Ar),
            spZeros ((At :: Ar).length * nx) nx]) =
          At.map (fun col => List.replicate nx 0 ++
            (col ++ List.replicate (Ar.length * nx) 0)) ++
          (spVstack2 (spZeros nx ((Ar.length + 1) * nx))
            (spHstack [spBlockDiagU nx Ar,
              spZeros (Ar.length * nx) nx])).map
            (fun col => List.replicate nx 0 ++ col) := by
        rw [hlowr, hvsr,
          show spZeros nx (((At :: Ar).length + 1) * nx) =
            spZeros nx ((At.map
              (fun col => col ++ List.replicate (Ar.length * nx) 0) ++
              (spHstack [spBlockDiagU nx Ar,
                spZeros (Ar.length * nx) nx]).map
                (fun col => List.replicate nx 0 ++ col)).length) from by
            rw [hlenlow2],
          spVstack2_zeros_top, List.map_append, List.map_map, List.map_map]
        rfl
      rw [hdiag, hadyn]
      -- split the sum of matrices
      rw [show addM ((spDiag (-1) nx).map
            (fun col => col ++ List.replicate ((Ar.length + 1) * nx) 0) ++
            (spDiag (-1) ((Ar.length + 1) * nx)).map
              (fun col => List.replicate nx 0 ++ col))
          (At.map (fun col => List.replicate nx 0 ++
            (col ++ List.replicate (Ar.length * nx) 0)) ++
            (spVstack2 (spZeros nx ((Ar.length + 1) * nx))
              (spHstack [spBlockDiagU nx Ar,
                spZeros (Ar.length * nx) nx])).map
              (fun col => List.replicate nx 0 ++ col)) =
          addM ((spDiag (-1) nx).map
            (fun col => col ++ List.replicate ((Ar.length + 1) * nx) 0))
            (At.map (fun col => List.replicate nx 0 ++
              (col ++ List.replicate (Ar.length * nx) 0))) ++
          addM ((spDiag (-1) ((Ar.length + 1) * nx)).map
            (fun col => List.replicate nx 0 ++ col))
            ((spVstack2 (spZeros nx ((Ar.length + 1) * nx))
              (spHstack [spBlockDiagU nx Ar,
                spZeros (Ar.length * nx) nx])).map
              (fun col => List.replicate nx 0 ++ col)) from by
        unfold addM
        rw [List.zipWith_append _ _ _ _ _ (by
          rw [List.length_map, List.length_map, length_spDiag, hAt])]]
      rw [addM_map_front]
      -- the first stage block in canonical form
      have hfirst : addM ((spDiag (-1) nx).map
          (fun col => col ++ List.replicate ((Ar.length + 1) * nx) 0))
          (At.map (fun col => List.replicate nx 0 ++
            (col ++ List.replicate (Ar.length * nx) 0))) =
          List.zipWith (fun d c => (List.replicate 0 0 ++ d) ++
            (c ++ List.replicate (Ar.length * nx) 0))
            (spDiag (-1) At.length) At := by
        unfold addM
        rw [List.zipWith_map_left, List.zipWith_map_right, hAt]
        apply zipWith_congr_mem
        intro d hd a ha
        have hdl : d.length = nx := spDiag_mem_length _ _ _ hd
        have hal : a.length = nx := hc At (by simp) a ha
        rw [addL_append _ _ _ _ (by rw [hdl, List.length_replicate]),
          show (List.replicate nx (0 : ℚ)) = List.replicate d.length 0 from
            by rw [hdl],
          addL_zero_right,
          show (List.replicate ((Ar.length + 1) * nx) (0 : ℚ)) =
            List.replicate (a ++ List.replicate (Ar.length * nx)
              (0 : ℚ)).length 0 from by
            have hcount : (Ar.length + 1) * nx =
                (a ++ List.replicate (Ar.length * nx) (0 : ℚ)).length := by
              rw [List.length_append, hal, List.length_replicate]
              ring
            rw [hcount],
          addL_zero_left]
        rfl
      rw [hfirst]
      -- peel the kron block
      have hkron : spKronEye ((At :: Ar).length + 1) ns Cc =
          Cc.map (fun col => col ++
            List.replicate ((Ar.length + 1) * ns) 0) ++
          (spKronEye (Ar.length + 1) ns Cc).map
            (fun col => List.replicate ns 0 ++ col) := by
        rw [show (At :: Ar).length + 1 = (Ar.length + 1) + 1 from by simp,
          spKronEye_succ]
      rw [hkron]
      -- split the outer zipWith
      rw [List.zipWith_append _ _ _ _ _ (by
        rw [List.length_zipWith, length_spDiag, List.length_map, hAt, hCc]
        simp)]
      have hcons : stateSegs (At :: Ar) (cDataOf Cc) =
          stateSegsBlock At (cDataOf Cc) ++ stateSegs Ar (cDataOf Cc) := by
        simp [stateSegs]
      rw [hcons, List.append_assoc]
      congr 1
      · rw [stageColsNzs At Cc 0 (Ar.length * nx) ((Ar.length + 1) * ns)
          (by rw [hAt, hCc]) (hnz At (by simp))]
        unfold stateSegsBlock cDataOf
        rw [List.zipWith_map_right]
      · rw [List.zipWith_map_left, List.zipWith_map_right]
        have hstrip : List.zipWith (fun a k =>
            nzs (List.replicate nx 0 ++ a) ++
              nzs (List.replicate ns 0 ++ k))
            (addM (spDiag (-1) ((Ar.length + 1) * nx))
              (spVstack2 (spZeros nx ((Ar.length + 1) * nx))
                (spHstack [spBlockDiagU nx Ar,
                  spZeros (Ar.length * nx) nx])))
            (spKronEye (Ar.length + 1) ns Cc) =
            List.zipWith (fun a k => nzs a ++ nzs k)
              (addM (spDiag (-1) ((Ar.length + 1) * nx))
                (spVstack2 (spZeros nx ((Ar.length + 1) * nx))
                  (spHstack [spBlockDiagU nx Ar,
                    spZeros (Ar.length * nx) nx])))
              (spKronEye (Ar.length + 1) ns Cc) := by
          apply zipWith_ext
          intro a k
          rw [nzs_pad_left, nzs_pad_left]
        rw [hstrip, ih hshr hcr hnzr]

theorem spVstack2_append (X1 X2 Y1 Y2 : List (List ℚ))
    (h : X1.length = Y1.length) :
    spVstack2 (X1 ++ X2) (Y1 ++ Y2) =
      spVstack2 X1 Y1 ++ spVstack2 X2 Y2 := by
  unfold spVstack2
  rw [List.zipWith_append _ _ _ _ _ h]

theorem map_nzs_spVstack2 (P Q : List (List ℚ)) :
    (spVstack2 P Q).map nzs =
      List.zipWith (fun p q => nzs p ++ nzs q) P Q := by
  unfold spVstack2
  exact map_nzs_zipWith P Q

theorem length_spVstack2 (a b : List (List ℚ)) :
    (spVstack2 a b).length = min a.length b.length := by
  unfold spVstack2
  rw [List.length_zipWith]

theorem spVstack2_zeros_bot_of (k : ℕ) (X : List (List ℚ)) (c : ℕ)
    (h : c = X.length) :
    spVstack2 X (spZeros k c) =
      X.map (fun col => col ++ List.replicate k 0) := by
  rw [h]
  exact spVstack2_zeros_bot k X

theorem spVstack2_zeros_top_of (k : ℕ) (X : List (List ℚ)) (c : ℕ)
    (h : c = X.length) :
    spVstack2 (spZeros k c) X =
      X.map (fun col => List.replicate k 0 ++ col) := by
  rw [h]
  exact spVstack2_zeros_top k X

/-- Under the controller shape invariants and with every linearization
entry nonzero, the stored CSC data of the stacked constraint matrix is
exactly the manually assembled data array. -/
theorem cscData_eq_rebuild (nx nu ns : ℕ) (Cc : List (List ℚ))
    (A B : List (List (List ℚ)))
    (hCc : Cc.length = nx)
    (hNB : B.length = A.length)
    (hshA : ∀ b ∈ A, b.length = nx) (hshB : ∀ b ∈ B, b.length = nu)
    (hcA : ∀ b ∈ A, ∀ a ∈ b, a.length = nx)
    (hnzA : ∀ b ∈ A, ∀ c ∈ b, ∀ x ∈ c, x ≠ 0)
    (hnzB : ∀ b ∈ B, ∀ c ∈ b, ∀ x ∈ c, x ≠ 0) :
    cscData (construct_constraint_matrix_ nx nu ns Cc A B) =
      construct_constraint_matrix_data_ Cc A B := by
  have hBD : (spBlockDiagU nx A).length = A.length * nx :=
    length_spBlockDiagU_uniform nx nx A hshA
  have hBDB : (spBlockDiagU nx B).length = A.length * nu := by
    rw [length_spBlockDiagU_uniform nx nu B hshB, hNB]
  have hlenAdyn : (spVstack2 (spZeros nx ((A.length + 1) * nx))
      (spHstack [spBlockDiagU nx A,
        spZeros (A.length * nx) nx])).length = (A.length + 1) * nx := by
    unfold spVstack2
    rw [List.length_zipWith, length_spZeros, spHstack_two,
      List.length_append, hBD, length_spZeros]
    have : A.length * nx + nx = (A.length + 1) * nx := by ring
    rw [this, Nat.min_self]
  have hlenAx : (addM (spDiag (-1) ((A.length + 1) * nx))
      (spVstack2 (spZeros nx ((A.length + 1) * nx))
        (spHstack [spBlockDiagU nx A,
          spZeros (A.length * nx) nx]))).length = (A.length + 1) * nx := by
    unfold addM
    rw [List.length_zipWith, length_spDiag, hlenAdyn, Nat.min_self]
  have hlenBu : (spVstack2 (spZeros nx (A.length * nu))
      (spBlockDiagU nx B)).length = A.length * nu := by
    unfold spVstack2
    rw [List.length_zipWith, length_spZeros, hBDB, Nat.min_self]
  unfold construct_constraint_matrix_
  show cscData (spVstack2 (spVstack2
    (spHstack [addM (spDiag (-1) ((A.length + 1) * nx))
      (spVstack2 (spZeros nx ((A.length + 1) * nx))
        (spHstack [spBlockDiagU nx A, spZeros (A.length * nx) nx])),
      spVstack2 (spZeros nx (A.length * nu)) (spBlockDiagU nx B)])
    (spHstack [spZeros (A.length * nu) ((A.length + 1) * nx),
      spDiag 1 (A.length * nu)]))
    (spHstack [spKronEye (A.length + 1) ns Cc,
      spZeros ((A.length + 1) * ns) (A.length * nu)])) = _
  rw [show spHstack [addM (spDiag (-1) ((A.length + 1) * nx))
        (spVstack2 (spZeros nx ((A.length + 1) * nx))
          (spHstack [spBlockDiagU nx A, spZeros (A.length * nx) nx])),
      spVstack2 (spZeros nx (A.length * nu)) (spBlockDiagU nx B)] =
      addM (spDiag (-1) ((A.length + 1) * nx))
        (spVstack2 (spZeros nx ((A.length + 1) * nx))
          (spHstack [spBlockDiagU nx A, spZeros (A.length * nx) nx])) ++
      spVstack2 (spZeros nx (A.length * nu)) (spBlockDiagU nx B) from
      spHstack_two _ _,
    show spHstack [spZeros (A.length * nu) ((A.length + 1) * nx),
      spDiag 1 (A.length * nu)] =
      spZeros (A.length * nu) ((A.length + 1) * nx) ++
        spDiag 1 (A.length * nu) from spHstack_two _ _,
    show spHstack [spKronEye (A.length + 1) ns Cc,
      spZeros ((A.length + 1) * ns) (A.length * nu)] =
      spKronEye (A.length + 1) ns Cc ++
        spZeros ((A.length + 1) * ns) (A.length * nu) from spHstack_two _ _]
  -- split columns into the state group and the input group
  rw [show spVstack2 (addM (spDiag (-1) ((A.length + 1) * nx))
      (spVstack2 (spZeros nx ((A.length + 1) * nx))
        (spHstack [spBlockDiagU nx A, spZeros (A.length * nx) nx])) ++
      spVstack2 (spZeros nx (A.length * nu)) (spBlockDiagU nx B))
      (spZeros (A.length * nu) ((A.length + 1) * nx) ++
        spDiag 1 (A.length * nu)) =
      spVstack2 (addM (spDiag (-1) ((A.length + 1) * nx))
        (spVstack2 (spZeros nx ((A.length + 1) * nx))
          (spHstack [spBlockDiagU nx A, spZeros (A.length * nx) nx])))
        (spZeros (A.length * nu) ((A.length + 1) * nx)) ++
      spVstack2 (spVstack2 (spZeros nx (A.length * nu))
        (spBlockDiagU nx B)) (spDiag 1 (A.length * nu)) from
    spVstack2_append _ _ _ _ (by rw [hlenAx, length_spZeros])]
  rw [show spVstack2 (spVstack2 (addM (spDiag (-1) ((A.length + 1) * nx))
      (spVstack2 (spZeros nx ((A.length + 1) * nx))
        (spHstack [spBlockDiagU nx A, spZeros (A.length * nx) nx])))
      (spZeros (A.length * nu) ((A.length + 1) * nx)) ++
      spVstack2 (spVstack2 (spZeros nx (A.length * nu))
        (spBlockDiagU nx B)) (spDiag 1 (A.length * nu)))
      (spKronEye (A.length + 1) ns Cc ++
        spZeros ((A.length + 1) * ns) (A.length * nu)) =
      spVstack2 (spVstack2 (addM (spDiag (-1) ((A.length + 1) * nx))
        (spVstack2 (spZeros nx ((A.length + 1) * nx))
          (spHstack [spBlockDiagU nx A, spZeros (A.length * nx) nx])))
        (spZeros (A.length * nu) ((A.length + 1) * nx)))
        (spKronEye (A.length + 1) ns Cc) ++
      spVstack2 (spVstack2 (spVstack2 (spZeros nx (A.length * nu))
        (spBlockDiagU nx B)) (spDiag 1 (A.length * nu)))
        (spZeros ((A.length + 1) * ns) (A.length * nu)) from
    spVstack2_append _ _ _ _ (by
      rw [length_spVstack2, hlenAx, length_spZeros, Nat.min_self,
        length_spKronEye, hCc])]
  unfold cscData
  rw [List.map_append, List.flatten_append]
  -- the state-variable column group
  have hstate : ((spVstack2 (spVstack2
      (addM (spDiag (-1) ((A.length + 1) * nx))
        (spVstack2 (spZeros nx ((A.length + 1) * nx))
          (spHstack [spBlockDiagU nx A, spZeros (A.length * nx) nx])))
      (spZeros (A.length * nu) ((A.length + 1) * nx)))
      (spKronEye (A.length + 1) ns Cc)).map nzs).flatten =
      ((stateSegs A (cDataOf Cc) ++ termSegs (cDataOf Cc))).flatten := by
    rw [show spVstack2 (addM (spDiag (-1) ((A.length + 1) * nx))
        (spVstack2 (spZeros nx ((A.length + 1) * nx))
          (spHstack [spBlockDiagU nx A, spZeros (A.length * nx) nx])))
        (spZeros (A.length * nu) ((A.length + 1) * nx)) =
        (addM (spDiag (-1) ((A.length + 1) * nx))
          (spVstack2 (spZeros nx ((A.length + 1) * nx))
            (spHstack [spBlockDiagU nx A,
              spZeros (A.length * nx) nx]))).map
          (fun col => col ++ List.replicate (A.length * nu) 0) from
      spVstack2_zeros_bot_of _ _ _ hlenAx.symm]
    rw [map_nzs_spVstack2, List.zipWith_map_left]
    have hext : List.zipWith (fun a q =>
        nzs (a ++ List.replicate (A.length * nu) 0) ++ nzs q)
        (addM (spDiag (-1) ((A.length + 1) * nx))
          (spVstack2 (spZeros nx ((A.length + 1) * nx))
            (spHstack [spBlockDiagU nx A, spZeros (A.length * nx) nx])))
        (spKronEye (A.length + 1) ns Cc) =
        List.zipWith (fun a q => nzs a ++ nzs q)
          (addM (spDiag (-1) ((A.length + 1) * nx))
            (spVstack2 (spZeros nx ((A.length + 1) * nx))
              (spHstack [spBlockDiagU nx A, spZeros (A.length * nx) nx])))
          (spKronEye (A.length + 1) ns Cc) := by
      apply zipWith_ext
      intro a q
      rw [nzs_pad_right]
    rw [hext, stateBlocksNzs nx ns Cc A hCc hshA hcA hnzA]
  -- the input-variable column group
  have hinput : ((spVstack2 (spVstack2 (spVstack2
      (spZeros nx (A.length * nu)) (spBlockDiagU nx B))
      (spDiag 1 (A.length * nu)))
      (spZeros ((A.length + 1) * ns) (A.length * nu))).map nzs).flatten =
      (inputSegs B).flatten := by
    rw [show spVstack2 (spZeros nx (A.length * nu)) (spBlockDiagU nx B) =
        (spBlockDiagU nx B).map
          (fun col => List.replicate nx 0 ++ col) from
      spVstack2_zeros_top_of _ _ _ hBDB.symm]
    rw [show spVstack2 (spVstack2 ((spBlockDiagU nx B).map
        (fun col => List.replicate nx 0 ++ col))
        (spDiag 1 (A.length * nu)))
        (spZeros ((A.length + 1) * ns) (A.length * nu)) =
        (spVstack2 ((spBlockDiagU nx B).map
          (fun col => List.replicate nx 0 ++ col))
          (spDiag 1 (A.length * nu))).map
          (fun col => col ++ List.replicate ((A.length + 1) * ns) 0) from
      spVstack2_zeros_bot_of _ _ _ (by
        rw [length_spVstack2, List.length_map, hBDB, length_spDiag,
          Nat.min_self])]
    rw [List.map_map]
    have hmapeq : (List.map (nzs ∘ fun col =>
        col ++ List.replicate ((A.length + 1) * ns) 0)
        (spVstack2 ((spBlockDiagU nx B).map
          (fun col => List.replicate nx 0 ++ col))
          (spDiag 1 (A.length * nu)))) =
        (spVstack2 ((spBlockDiagU nx B).map
          (fun col => List.replicate nx 0 ++ col))
          (spDiag 1 (A.length * nu))).map nzs := by
      apply List.map_congr_left
      intro col _
      show nzs (col ++ List.replicate ((A.length + 1) * ns) 0) = nzs col
      rw [nzs_pad_right]
    rw [hmapeq, map_nzs_spVstack2, List.zipWith_map_left]
    have hext2 : List.zipWith (fun b e =>
        nzs (List.replicate nx 0 ++ b) ++ nzs e)
        (spBlockDiagU nx B) (spDiag 1 (A.length * nu)) =
        List.zipWith (fun b e => nzs b ++ nzs e)
          (spBlockDiagU nx B) (spDiag 1 (A.length * nu)) := by
      apply zipWith_ext
      intro b e
      rw [nzs_pad_left]
    rw [hext2, ← hNB, inputBlocksNzs nx nu B hshB hnzB]
  rw [hstate, hinput]
  unfold construct_constraint_matrix_data_
  rw [List.flatten_append, List.flatten_append, List.flatten_append]

/-! ## NonlinearMPCController: constraint vectors -/

/-- Total list access with numpy-style default 0 (all uses are in range). -/
def at0 (l : List ℚ) (j : ℕ) : ℚ := l.getD j 0

/-- `np.tile(v, n)`. -/
def tileL (v : List ℚ) (n : ℕ) : List ℚ := (List.replicate n v).flatten

/-- `construct_constraint_vecs_`: the `(l, u)` bound vectors of the QP.
`z` is the current lifted state, `z_init`/`u_init` the trajectory guess
(lists of rows), `r_lst` the per-stage linearization residuals, `Crows`
the output matrix as rows, and `N = u_init.length` the horizon. -/
def construct_constraint_vecs_ (N : ℕ) (Crows : List (List ℚ))
    (umin umax xmin xmax xr : List ℚ) (terminal_constraint : Bool)
    (z : List ℚ) (z_init u_init r_lst : List (List ℚ)) :
    List ℚ × List ℚ :=
  let ns := xr.length
  let dz0 := subL z (z_init.headD [])
  let r_vec := r_lst.flatten
  let leq := negL dz0 ++ negL r_vec
  let ueq := leq
  let lineq_u := subL (tileL umin N) u_init.flatten
  let uineq_u := subL (tileL umax N) u_init.flatten
  let cz := (z_init.map (fun zt => matVecRows Crows zt)).flatten
  let lineq_x0 := subL (tileL xmin (N + 1)) cz
  let uineq_x0 := subL (tileL xmax (N + 1)) cz
  let tblock := subL xr (matVecRows Crows (z_init.getLastD []))
  let lineq_x := if terminal_constraint then
    lineq_x0.take (lineq_x0.length - ns) ++ tblock else lineq_x0
  let uineq_x := if terminal_constraint then
    uineq_x0.take (uineq_x0.length - ns) ++ tblock else uineq_x0
  (leq ++ lineq_u ++ lineq_x, ueq ++ uineq_u ++ uineq_x)

theorem at0_append_left (a b : List ℚ) (j : ℕ) (h : j < a.length) :
    at0 (a ++ b) j = at0 a j := by
  unfold at0
  induction a generalizing j with
  | nil => simp at h
  | cons x t ih =>
      cases j with
      | zero => rfl
      | succ m => exact ih m (by simpa using h)

theorem at0_append_right (a b : List ℚ) (j : ℕ) :
    at0 (a ++ b) (a.length + j) = at0 b j := by
  unfold at0
  induction a with
  | nil => simp
  | cons x t ih => simpa [Nat.succ_add] using ih

theorem at0_zipWith (f : ℚ → ℚ → ℚ) (a b : List ℚ) (j : ℕ)
    (ha : j < a.length) (hb : j < b.length) :
    at0 (List.zipWith f a b) j = f (at0 a j) (at0 b j) := by
  unfold at0
  induction a generalizing b j with
  | nil => simp at ha
  | cons x t ih =>
      cases b with
      | nil => simp at hb
      | cons y u =>
          cases j with
          | zero => rfl
          | succ m =>
              exact ih u m (by simpa using ha) (by simpa using hb)

theorem at0_subL (a b : List ℚ) (j : ℕ) (ha : j < a.length)
    (hb : j < b.length) : at0 (subL a b) j = at0 a j - at0 b j :=
  at0_zipWith (· - ·) a b j ha hb

theorem at0_negL (a : List ℚ) (j : ℕ) (h : j < a.length) :
    at0 (negL a) j = -(at0 a j) := by
  unfold at0 negL
  induction a generalizing j with
  | nil => simp at h
  | cons x t ih =>
      cases j with
      | zero => rfl
      | succ m => exact ih m (by simpa using h)

theorem at0_flatten_uniform (L : List (List ℚ)) (k : ℕ)
    (h : ∀ b ∈ L, b.length = k) (t i : ℕ) (ht : t < L.length)
    (hi : i < k) :
    at0 L.flatten (t * k + i) = at0 (L.getD t []) i := by
  induction L generalizing t with
  | nil => simp at ht
  | cons b rest ih =>
      cases t with
      | zero =>
          rw [Nat.zero_mul, Nat.zero_add, List.flatten_cons]
          exact at0_append_left b rest.flatten i
            (by rw [h b (by simp)]; exact hi)
      | succ m =>
          rw [List.flatten_cons,
            show (m + 1) * k + i = b.length + (m * k + i) from by
              rw [h b (by simp)]
              ring,
            at0_append_right]
          exact ih (fun x hx => h x (by simp [hx])) m (by simpa using ht)

theorem getD_replicate_of_lt {α : Type} (n t : ℕ) (v d : α) (ht : t < n) :
    (List.replicate n v).getD t d = v := by
  induction n generalizing t with
  | zero => omega
  | succ m ih =>
      cases t with
      | zero => rfl
      | succ j => exact ih j (by omega)

theorem at0_tileL (v : List ℚ) (n t i : ℕ) (ht : t < n)
    (hi : i < v.length) : at0 (tileL v n) (t * v.length + i) = at0 v i := by
  unfold tileL
  rw [at0_flatten_uniform (List.replicate n v) v.length
    (fun b hb => by rw [List.eq_of_mem_replicate hb]) t i
    (by simpa using ht) hi,
    getD_replicate_of_lt n t v [] ht]

/-! ## NonlinearMPCController: the successive-linearization loop

The loop body (relinearize, refresh the QP data, call the solver) is
abstracted as `solveStep`, returning the transposed corrections
`(dz.T, du.T)` that the source adds onto the guess; `normF` abstracts
`np.linalg.norm` on the difference of two control trajectories. -/

/-- One iteration of `solve_to_convergence`: apply the QP step as an
additive correction to the trajectory guess
(`cur_z = z_init + dz.T; cur_u = u_init + du.T`). -/
def mpcStep (solveStep : List (List ℚ) → List (List ℚ) →
    List (List ℚ) × List (List ℚ))
    (s : List (List ℚ) × List (List ℚ)) :
    List (List ℚ) × List (List ℚ) :=
  (addM s.1 (solveStep s.1 s.2).1, addM s.2 (solveStep s.1 s.2).2)

/-- The `while (iter == 0 or norm(u_prev - cur_u) > eps) and iter < max_iter`
loop.  `fuel = max_iter - iter` (so `fuel = 0` is exactly `iter = max_iter`),
`firstDone` is `iter > 0`, and the result is the number of iterations
executed together with the final trajectory pair. -/
def stcLoop (solveStep : List (List ℚ) → List (List ℚ) →
    List (List ℚ) × List (List ℚ))
    (normF : List (List ℚ) → List (List ℚ) → ℚ) (eps : ℚ) :
    ℕ → Bool → List (List ℚ) →
    (List (List ℚ) × List (List ℚ)) →
    ℕ × (List (List ℚ) × List (List ℚ))
  | 0, _, _, s => (0, s)
  | fuel + 1, firstDone, u_prev, s =>
      if firstDone = false ∨ normF u_prev s.2 > eps then
        let r := stcLoop solveStep normF eps fuel true s.2
          (mpcStep solveStep s)
        (r.1 + 1, r.2)
      else (0, s)

/-- `solve_to_convergence(z, t, z_init_0, u_init_0, eps, max_iter)`:
`u_prev` starts as `np.zeros_like(u_init_0)` and `iter` as 0. -/
def solve_to_convergence (solveStep : List (List ℚ) → List (List ℚ) →
    List (List ℚ) × List (List ℚ))
    (normF : List (List ℚ) → List (List ℚ) → ℚ) (eps : ℚ) (max_iter : ℕ)
    (z_init_0 u_init_0 : List (List ℚ)) :
    ℕ × (List (List ℚ) × List (List ℚ)) :=
  stcLoop solveStep normF eps max_iter false
    (u_init_0.map (fun row => row.map (fun _ => 0))) (z_init_0, u_init_0)

/-- Default value of the `eps` keyword argument of
`solve_to_convergence`. -/
def solve_to_convergence_default_eps : ℚ := 1 / 1000

/-- Default value of the `max_iter` keyword argument of
`solve_to_convergence`. -/
def solve_to_convergence_default_max_iter : ℕ := 1

/-! ## BilinearEdmd -/

/-- External standardizer contract: `fit`, `transform`, `inverse_transform`
over 2-D arrays (only the two transforms are read by `fit`). -/
structure Standardizer where
  transform : List (List ℚ) → List (List ℚ)
  inverse_transform : List (List ℚ) → List (List ℚ)

/-- `int(b)` for a Python Bool. -/
def bint (b : Bool) : ℕ := if b then 1 else 0

/-- `M[:, a:a+w]` for a matrix stored as rows. -/
def sliceCols (M : List (List ℚ)) (a w : ℕ) : List (List ℚ) :=
  M.map (fun r => (r.drop a).take w)

/-- `np.zeros((r, c))` as rows. -/
def zerosM (r c : ℕ) : List (List ℚ) :=
  List.replicate r (List.replicate c 0)

/-- Row `i` of `np.eye(k)`. -/
def eyeRow (k i : ℕ) : List ℚ :=
  (List.range k).map (fun j => if j = i then 1 else 0)

/-- The `kin_dyn` block of `BilinearEdmd.fit`:
`[zeros(n/2, n/2+fc) | eye(n/2) | zeros(n/2, n_lift-n-fc)]`. -/
def kin_dyn (n n_lift : ℕ) (fc : Bool) : List (List ℚ) :=
  (List.range (n / 2)).map (fun i =>
    List.replicate (n / 2 + bint fc) 0 ++ eyeRow (n / 2) i ++
      List.replicate (n_lift - n - bint fc) 0)

/-- The state of a `BilinearEdmd` instance that `fit`/`reduce_mdl`
read and write. -/
structure EdmdState where
  n : ℕ
  m : ℕ
  n_lift : ℕ
  A : List (List ℚ)
  B : List (List (List ℚ))
  C : List (List ℚ)
  obs_in_use : Option (List ℕ)
  n_lift_reduced : Option ℕ

/-- `__init__`: `self.B = []`, reduced-model fields unset. -/
def edmdInit (n m n_lift : ℕ) (C : List (List ℚ)) : EdmdState :=
  { n := n, m := m, n_lift := n_lift, A := [], B := [], C := C,
    obs_in_use := none, n_lift_reduced := none }

/-- The coefficient post-processing in `fit`: the raw fitted coefficients
when no standardizer is configured, else `standardizer.transform` of them. -/
def fitCoefs (std : Option Standardizer) (mdl_coefs : List (List ℚ)) :
    List (List ℚ) :=
  match std with
  | none => mdl_coefs
  | some s => s.transform mdl_coefs

/-- The `A` matrix produced by `fit` from the processed coefficients. -/
def fitA (override_kinematics fc : Bool) (n n_lift : ℕ)
    (coefs : List (List ℚ)) : List (List ℚ) :=
  if override_kinematics then
    if fc then
      zerosM 1 n_lift ++ kin_dyn n n_lift fc ++ sliceCols coefs 0 n_lift
    else
      kin_dyn n n_lift fc ++ sliceCols coefs 0 n_lift
  else sliceCols coefs 0 n_lift

/-- The `B_i` matrices appended by `fit` (`ii = 0 .. m-1`). -/
def fitBs (override_kinematics fc : Bool) (n m n_lift : ℕ)
    (coefs : List (List ℚ)) : List (List (List ℚ)) :=
  (List.range m).map (fun ii =>
    if override_kinematics then
      zerosM (n / 2 + bint fc) n_lift ++
        sliceCols coefs (n_lift * (ii + 1)) n_lift
    else sliceCols coefs (n_lift * (ii + 1)) n_lift)

/-- `fit(X, y, ...)`.  `mdl_coefs` is what the (external) optimizer or
cross-validator returns; `self.A` is overwritten while the new `B_i` are
appended to the existing `self.B` list. -/
def fit (st : EdmdState) (std : Option Standardizer)
    (override_kinematics fc : Bool) (mdl_coefs : List (List ℚ)) :
    EdmdState :=
  let coefs := fitCoefs std mdl_coefs
  { st with
    A := fitA override_kinematics fc st.n st.n_lift coefs,
    B := st.B ++ fitBs override_kinematics fc st.n st.m st.n_lift coefs }

/-- `np.unique(np.nonzero(M)[1])` for a matrix stored as rows with
`n_cols` columns: the sorted column indices holding a nonzero. -/
def nzCols (M : List (List ℚ)) (n_cols : ℕ) : List ℕ :=
  (List.range n_cols).filter (fun j => M.any (fun row => at0 row j ≠ 0))

/-- `np.unique(np.nonzero(M[sel, :])[1])`: sorted column indices holding a
nonzero within the selected rows. -/
def nzColsSel (M : List (List ℚ)) (sel : List ℕ) (n_cols : ℕ) : List ℕ :=
  (List.range n_cols).filter
    (fun j => sel.any (fun i => at0 (M.getD i []) j ≠ 0))

/-- One pass of the `while` body in `reduce_mdl`:
`in_use = unique(nonzero(A[in_use,:])[1])` (a replacement, not a union),
then `in_use = unique(concat(in_use, nonzero(B[ii][in_use,:])[1]))` for
each control channel. -/
def reducePass (st : EdmdState) (in_use : List ℕ) : List ℕ :=
  let s1 := nzColsSel st.A in_use st.n_lift
  (List.range st.m).foldl (fun s ii =>
    (List.range st.n_lift).filter (fun j => j ∈ s ∨
      s.any (fun i => at0 ((st.B.getD ii []).getD i []) j ≠ 0))) s1

/-- The `while n_obs_used < in_use.size` loop.  The fuel only bounds the
recursion: while the loop continues the size strictly increases and stays
at most `n_lift`, so `n_lift + 1` units of fuel are never exhausted. -/
def reduceLoop (st : EdmdState) : ℕ → ℕ → List ℕ → List ℕ
  | 0, _, in_use => in_use
  | fuel + 1, n_obs_used, in_use =>
      if n_obs_used < in_use.length then
        reduceLoop st fuel in_use.length (reducePass st in_use)
      else in_use

/-- `M[sel, :]`. -/
def selRows (M : List (List ℚ)) (sel : List ℕ) : List (List ℚ) :=
  sel.map (fun i => M.getD i [])

/-- `M[:, sel]`. -/
def selCols (M : List (List ℚ)) (sel : List ℕ) : List (List ℚ) :=
  M.map (fun row => sel.map (fun j => at0 row j))

/-- `reduce_mdl()`: compute the in-use set starting from the nonzero-column
support of `C`, then restrict `A`, every `B_i` and `C` to it. -/
def reduce_mdl (st : EdmdState) : EdmdState :=
  let in_use0 := nzCols st.C st.n_lift
  let in_use := reduceLoop st (st.n_lift + 1) 0 in_use0
  { st with
    A := selCols (selRows st.A in_use) in_use,
    B := (List.range st.m).map (fun ii =>
      selCols (selRows (st.B.getD ii []) in_use) in_use),
    C := selCols st.C in_use,
    obs_in_use := some in_use,
    n_lift_reduced := some in_use.length }

/-- One pass of the closure described by the specification.
Modelled from the spec: section 4.1 describes `reduce_mdl` as iteratively
EXPANDING the in-use set, "closure under affects something already in use",
following nonzero couplings in `A` and every `B_i` from the nonzero-column
support of `C` until a fixed point; the union with the previous set is what
the source file lacks. -/
def closurePass_spec (st : EdmdState) (in_use : List ℕ) : List ℕ :=
  (List.range st.n_lift).filter (fun j => j ∈ in_use ∨
    in_use.any (fun i => at0 (st.A.getD i []) j ≠ 0) ∨
    (List.range st.m).any (fun ii =>
      in_use.any (fun i => at0 ((st.B.getD ii []).getD i []) j ≠ 0)))

/-- The reachability closure of the specification: iterate the monotone
expansion to a fixed point.  Modelled from the spec (section 4.1). -/
def closure_spec (st : EdmdState) : List ℕ :=
  (st.n_lift + 1).rec (nzCols st.C st.n_lift)
    (fun _ acc => closurePass_spec st acc)

/-! ## BilinearEdmd.lift -/

/-- Ternary pointwise zip, truncating like `List.zipWith`. -/
def zipW3 {α β γ δ : Type} (f : α → β → γ → δ) :
    List α → List β → List γ → List δ
  | a :: as, b :: bs, c :: cs => f a b c :: zipW3 f as bs cs
  | _, _, _ => []

/-- `lift(x, u)`: lift each trajectory with the plain (externally supplied)
lift on `x[ii, :-1, :]` and `u[ii, :, :]`, then append, for each control
channel `ii`, the elementwise product of the lifted trace with
`np.tile(u[:, :, ii:ii+1], (1, 1, n_lift))`. -/
def bilinearLift
    (baseLift : List (List ℚ) → List (List ℚ) → List (List ℚ)) (m : ℕ)
    (x u : List (List (List ℚ))) : List (List (List ℚ)) :=
  let z := List.zipWith (fun xi ui => baseLift xi.dropLast ui) x u
  (List.range m).foldl (fun zb ii =>
    zipW3 (fun zbT zT uT =>
      zipW3 (fun zbrow zrow urow =>
        zbrow ++ zrow.map (fun v => v * at0 urow ii)) zbT zT uT) zb z u) z

/-- The per-time-step row the bilinear lift produces: the plain lifted row
followed by one block per control channel. -/
def augRow (m : ℕ) (zrow urow : List ℚ) : List ℚ :=
  zrow ++ ((List.range m).map (fun k =>
    zrow.map (fun v => v * at0 urow k))).flatten

/-! ## BilinearMpcController -/

/-- Column `j` of a row-major matrix. -/
def colAt (M : List (List ℚ)) (j : ℕ) : List ℚ := M.map (fun r => at0 r j)

/-- Row-major matrix product `A @ B`. -/
def matMulRows (A B : List (List ℚ)) : List (List ℚ) :=
  A.map (fun ar => (List.range (B.headD []).length).map
    (fun j => dotL ar (colAt B j)))

/-- `BilinearMpcController.eval(x, t)`.  The cvxpy solve is abstracted by
the `(solveStatus, solveNu)` outcome of this call and `np.linalg.solve` by
the black-box `linSolve`; the assertion is modelled as `Except.error`, so a
non-optimal QP status never yields a control action. -/
def bilinearMpcEval (phi_fun : List ℚ → List ℚ) (n_lift : ℕ)
    (set_pt : List ℚ) (F : List (List ℚ))
    (act : List ℚ → ℚ → List (List ℚ)) (Cx : List (List ℚ))
    (linSolve : List (List ℚ) → List ℚ → List ℚ)
    (solveStatus : String) (solveNu : List ℚ)
    (x : List ℚ) (t : ℚ) : Except String (List ℚ) :=
  let zd := phi_fun set_pt
  let zd_ddot := List.replicate n_lift (0 : ℚ)
  let z := phi_fun x
  if solveStatus = "optimal" then
    let nu := solveNu
    Except.ok (linSolve (matMulRows (matMulRows Cx F) (act z t))
      (matVecRows Cx (addL (subL zd_ddot
        (matVecRows F (matVecRows F zd))) nu)))
  else Except.error "MPC not solved to optimality"

/-! ## Claim theorems -/

/-- A one-coordinate bilinear model whose output map reads coordinate 0
while `A` and `B_1` are zero: the failing input for C1. -/
def uncoupledModel : EdmdState where
  n := 1
  m := 1
  n_lift := 1
  A := [[(0 : ℚ)]]
  B := [[[(0 : ℚ)]]]
  C := [[(1 : ℚ)]]
  obs_in_use := none
  n_lift_reduced := none

/-- C1: `reduce_mdl` evaluated at a model whose output map reads
coordinate 0 while `A` and `B_1` are zero.  The first pass of the loop
REPLACES the in-use set by the nonzero columns of `A[in_use, :]` instead of
expanding it, so the coordinate the output map reads is dropped:
`obs_in_use` comes out empty although the closure prescribed by the
specification (and the nonzero-column support of `C` itself) is `{0}`. -/
theorem reduce_mdl_drops_output_coordinate :
    (reduce_mdl uncoupledModel).obs_in_use = some [] ∧
    closure_spec uncoupledModel = [0] ∧
    nzCols uncoupledModel.C uncoupledModel.n_lift = [0] ∧
    (reduce_mdl uncoupledModel).C = [[]] := by
  refine ⟨?_, ?_, ?_, ?_⟩ <;> decide

/-- C2 (counterexample): with a zero entry in the new `A` linearization
block, the in-place update of the data array (which keeps an explicit slot
for every entry of every block) is NOT the CSC data of the matrix rebuilt
by `construct_constraint_matrix_` from those blocks, because scipy drops
exact zeros when converting the dense blocks. -/
theorem update_ne_cscData_at_zero_entry :
    update_constraint_matrix_data_
      (construct_constraint_matrix_data_ [[(1 : ℚ)]] [[[(1 : ℚ)]]]
        [[[(2 : ℚ)]]])
      (aInds 1 (cDataOf [[(1 : ℚ)]]) 1) (bInds 1 1 (cDataOf [[(1 : ℚ)]]) 1)
      [[[(0 : ℚ)]]] [[[(3 : ℚ)]]] ≠
      cscData (construct_constraint_matrix_ 1 1 1 [[(1 : ℚ)]]
        [[[(0 : ℚ)]]] [[[(3 : ℚ)]]]) := by
  have hl : update_constraint_matrix_data_
      (construct_constraint_matrix_data_ [[(1 : ℚ)]] [[[(1 : ℚ)]]]
        [[[(2 : ℚ)]]])
      (aInds 1 (cDataOf [[(1 : ℚ)]]) 1) (bInds 1 1 (cDataOf [[(1 : ℚ)]]) 1)
      [[[(0 : ℚ)]]] [[[(3 : ℚ)]]] =
      [-1, 0, 1, -1, 1, 3, 1] := by decide
  have hr : cscData (construct_constraint_matrix_ 1 1 1 [[(1 : ℚ)]]
      [[[(0 : ℚ)]]] [[[(3 : ℚ)]]]) = [-1, 1, -1, 1, 3, 1] := by
    norm_num [cscData, construct_constraint_matrix_, spVstack2, spHstack,
      spBlockDiagU, spKronEye, spZeros, spDiag, spDiagCol, addM, addL, nzs,
      List.range_succ, List.replicate_succ, List.zipWith_cons_cons,
      List.filter_cons]
  rw [hl, hr]
  decide

/-- C2 (amended): refreshing the flat nonzero-value array in place via the
precomputed index maps is entrywise identical to rebuilding the data array
from scratch with the new linearization blocks, and when additionally every
entry of every new `A_t` and `B_t` block is nonzero it is also identical to
the CSC data of the constraint matrix built by
`construct_constraint_matrix_` from those blocks. -/
theorem update_constraint_matrix_data_eq_rebuild (nx nu ns : ℕ)
    (Cc : List (List ℚ)) (A0 A1 B0 B1 : List (List (List ℚ)))
    (hCc : Cc.length = nx)
    (hNA : A1.length = A0.length) (hNB0 : B0.length = A0.length)
    (hNB1 : B1.length = A0.length)
    (hshA0 : ∀ b ∈ A0, b.length = nx) (hshA1 : ∀ b ∈ A1, b.length = nx)
    (hshB0 : ∀ b ∈ B0, b.length = nu) (hshB1 : ∀ b ∈ B1, b.length = nu)
    (hcA0 : ∀ b ∈ A0, ∀ a ∈ b, a.length = nx)
    (hcA1 : ∀ b ∈ A1, ∀ a ∈ b, a.length = nx)
    (hcB0 : ∀ b ∈ B0, ∀ a ∈ b, a.length = nx)
    (hcB1 : ∀ b ∈ B1, ∀ a ∈ b, a.length = nx) :
    update_constraint_matrix_data_
      (construct_constraint_matrix_data_ Cc A0 B0)
      (aInds nx (cDataOf Cc) A0.length)
      (bInds nx nu (cDataOf Cc) A0.length) A1 B1 =
      construct_constraint_matrix_data_ Cc A1 B1 ∧
    ((∀ b ∈ A1, ∀ c ∈ b, ∀ x ∈ c, x ≠ 0) →
      (∀ b ∈ B1, ∀ c ∈ b, ∀ x ∈ c, x ≠ 0) →
      construct_constraint_matrix_data_ Cc A1 B1 =
        cscData (construct_constraint_matrix_ nx nu ns Cc A1 B1)) := by
  constructor
  · exact update_eq_rebuild nx nu Cc A0 A1 B0 B1 hCc hNA hNB0 hNB1
      hshA0 hshA1 hshB0 hshB1 hcA0 hcA1 hcB0 hcB1
  · intro hnzA hnzB
    exact (cscData_eq_rebuild nx nu ns Cc A1 B1 hCc (by rw [hNB1, hNA])
      hshA1 hshB1 hcA1 hnzA hnzB).symm

/-- C2 witness: the amended statement at a concrete two-stage instance. -/
theorem update_constraint_matrix_data_eq_rebuild_witness :
    update_constraint_matrix_data_
      (construct_constraint_matrix_data_ [[(1 : ℚ)], [(0 : ℚ)]]
        [[[(1 : ℚ), 2], [3, 4]], [[5, 6], [7, 8]]]
        [[[(9 : ℚ), 10]], [[11, 12]]])
      (aInds 2 (cDataOf [[(1 : ℚ)], [(0 : ℚ)]]) 2)
      (bInds 2 1 (cDataOf [[(1 : ℚ)], [(0 : ℚ)]]) 2)
      [[[(21 : ℚ), 22], [23, 24]], [[25, 26], [27, 28]]]
      [[[(29 : ℚ), 30]], [[31, 32]]] =
      construct_constraint_matrix_data_ [[(1 : ℚ)], [(0 : ℚ)]]
        [[[(21 : ℚ), 22], [23, 24]], [[25, 26], [27, 28]]]
        [[[(29 : ℚ), 30]], [[31, 32]]] ∧
    ((∀ b ∈ [[[(21 : ℚ), 22], [23, 24]], [[25, 26], [27, 28]]],
        ∀ c ∈ b, ∀ x ∈ c, x ≠ 0) →
      (∀ b ∈ [[[(29 : ℚ), 30]], [[31, 32]]], ∀ c ∈ b, ∀ x ∈ c, x ≠ 0) →
      construct_constraint_matrix_data_ [[(1 : ℚ)], [(0 : ℚ)]]
        [[[(21 : ℚ), 22], [23, 24]], [[25, 26], [27, 28]]]
        [[[(29 : ℚ), 30]], [[31, 32]]] =
        cscData (construct_constraint_matrix_ 2 1 1 [[(1 : ℚ)], [(0 : ℚ)]]
          [[[(21 : ℚ), 22], [23, 24]], [[25, 26], [27, 28]]]
          [[[(29 : ℚ), 30]], [[31, 32]]])) :=
  update_constraint_matrix_data_eq_rebuild 2 1 1 [[(1 : ℚ)], [(0 : ℚ)]]
    [[[(1 : ℚ), 2], [3, 4]], [[5, 6], [7, 8]]]
    [[[(21 : ℚ), 22], [23, 24]], [[25, 26], [27, 28]]]
    [[[(9 : ℚ), 10]], [[11, 12]]] [[[(29 : ℚ), 30]], [[31, 32]]]
    (by decide) (by decide) (by decide) (by decide) (by decide) (by decide)
    (by decide) (by decide) (by decide) (by decide) (by decide) (by decide)

/-- Fit with the standardizer applied the way the claim states it, i.e.
through `inverse_transform`.  Modelled from the spec: "optionally apply an
inverse standardization transform to the raw coefficients before
interpreting them as model blocks" (the source calls `transform`). -/
def fit_claimed (st : EdmdState) (std : Option Standardizer)
    (override_kinematics fc : Bool) (mdl_coefs : List (List ℚ)) :
    EdmdState :=
  let coefs := match std with
    | none => mdl_coefs
    | some s => s.inverse_transform mdl_coefs
  { st with
    A := fitA override_kinematics fc st.n st.n_lift coefs,
    B := st.B ++ fitBs override_kinematics fc st.n st.m st.n_lift coefs }

/-- C8 (counterexample): with a standardizer whose `transform` adds 1 and
whose `inverse_transform` subtracts 1, the `A` matrix fitted by the source
(`transform` applied to the coefficients) differs from the one the claim
describes (`inverse_transform` applied). -/
theorem fit_uses_transform_not_inverse :
    (fit (edmdInit 1 0 1 [[(1 : ℚ)]])
      (some { transform := fun M => M.map (fun r => r.map (fun _ => (1 : ℚ))),
              inverse_transform :=
                fun M => M.map (fun r => r.map (fun _ => (2 : ℚ))) })
      false false [[(0 : ℚ)]]).A ≠
    (fit_claimed (edmdInit 1 0 1 [[(1 : ℚ)]])
      (some { transform := fun M => M.map (fun r => r.map (fun _ => (1 : ℚ))),
              inverse_transform :=
                fun M => M.map (fun r => r.map (fun _ => (2 : ℚ))) })
      false false [[(0 : ℚ)]]).A := by
  decide

/-- C8 (amended): when a standardizer is configured, `fit` applies the
standardizer's forward `transform` method to the raw regression
coefficients before they are sliced into the model blocks — fitting with a
standardizer equals fitting without one on the pre-transformed
coefficients — and with no standardizer the raw coefficients are used
unchanged. -/
theorem fit_standardizer_transform (st : EdmdState)
    (s : Standardizer) (override_kinematics fc : Bool)
    (mdl_coefs : List (List ℚ)) :
    fit st (some s) override_kinematics fc mdl_coefs =
      fit st none override_kinematics fc (s.transform mdl_coefs) ∧
    fit st none override_kinematics fc mdl_coefs =
      { st with
        A := fitA override_kinematics fc st.n st.n_lift mdl_coefs,
        B := st.B ++
          fitBs override_kinematics fc st.n st.m st.n_lift mdl_coefs } :=
  ⟨rfl, rfl⟩

/-- C9: `BilinearMpcController.eval` returns a control action exactly when
the embedded solver status is the `optimal` sentinel; otherwise the
assertion fires (modelled as `Except.error`) and no action is produced.  On
an optimal solve the action is recovered from the auxiliary QP output `nu`
by solving the linear system whose matrix is `C @ F @ act(z, t)` built
from the CURRENT state `z = phi_fun(x)`. -/
theorem bilinearMpcEval_assert_and_order (phi_fun : List ℚ → List ℚ)
    (n_lift : ℕ) (set_pt : List ℚ) (F : List (List ℚ))
    (act : List ℚ → ℚ → List (List ℚ)) (Cx : List (List ℚ))
    (linSolve : List (List ℚ) → List ℚ → List ℚ)
    (solveStatus : String) (solveNu : List ℚ) (x : List ℚ) (t : ℚ) :
    (solveStatus ≠ "optimal" →
      bilinearMpcEval phi_fun n_lift set_pt F act Cx linSolve solveStatus
        solveNu x t = Except.error "MPC not solved to optimality") ∧
    (solveStatus = "optimal" →
      bilinearMpcEval phi_fun n_lift set_pt F act Cx linSolve solveStatus
        solveNu x t = Except.ok (linSolve
          (matMulRows (matMulRows Cx F) (act (phi_fun x) t))
          (matVecRows Cx (addL (subL (List.replicate n_lift 0)
            (matVecRows F (matVecRows F (phi_fun set_pt))))
            solveNu)))) := by
  constructor
  · intro h
    unfold bilinearMpcEval
    rw [if_neg h]
  · intro h
    unfold bilinearMpcEval
    rw [if_pos h]

/-- C9 witness: a non-optimal status at concrete inputs yields the
assertion error. -/
theorem bilinearMpcEval_assert_witness :
    bilinearMpcEval (fun v => v) 1 [(1 : ℚ)] [[(1 : ℚ)]]
      (fun _ _ => [[(1 : ℚ)]]) [[(1 : ℚ)]] (fun _ v => v)
      "infeasible" [(0 : ℚ)] [(1 : ℚ)] 0 =
      Except.error "MPC not solved to optimality" :=
  (bilinearMpcEval_assert_and_order (fun v => v) 1 [(1 : ℚ)] [[(1 : ℚ)]]
    (fun _ _ => [[(1 : ℚ)]]) [[(1 : ℚ)]] (fun _ v => v)
    "infeasible" [(0 : ℚ)] [(1 : ℚ)] 0).1 (by decide)

/-- C10: `fit` appends its `m` control-coupling matrices to the existing
`B` list (initialised to `[]` only in the constructor) without clearing
it: after a second `fit` on the same instance `B` has length `2 m`, its
first `m` entries are still the first fit's matrices, and `A` holds the
second fit's result. -/
theorem fit_accumulates_B (n m n_lift : ℕ) (C : List (List ℚ))
    (std1 std2 : Option Standardizer) (ov1 fc1 ov2 fc2 : Bool)
    (c1 c2 : List (List ℚ)) :
    (edmdInit n m n_lift C).B = [] ∧
    (fit (fit (edmdInit n m n_lift C) std1 ov1 fc1 c1)
        std2 ov2 fc2 c2).B.length = 2 * m ∧
    (fit (fit (edmdInit n m n_lift C) std1 ov1 fc1 c1)
        std2 ov2 fc2 c2).B.take m =
      fitBs ov1 fc1 n m n_lift (fitCoefs std1 c1) ∧
    (fit (fit (edmdInit n m n_lift C) std1 ov1 fc1 c1)
        std2 ov2 fc2 c2).A = fitA ov2 fc2 n n_lift (fitCoefs std2 c2) := by
  have hlen : ∀ ov fc (c : List (List ℚ)),
      (fitBs ov fc n m n_lift c).length = m := by
    intro ov fc c
    unfold fitBs
    rw [List.length_map, List.length_range]
  refine ⟨rfl, ?_, ?_, rfl⟩
  · show (([] ++ fitBs ov1 fc1 n m n_lift (fitCoefs std1 c1)) ++
      fitBs ov2 fc2 n m n_lift (fitCoefs std2 c2)).length = 2 * m
    rw [List.nil_append, List.length_append, hlen, hlen]
    ring
  · show (([] ++ fitBs ov1 fc1 n m n_lift (fitCoefs std1 c1)) ++
      fitBs ov2 fc2 n m n_lift (fitCoefs std2 c2)).take m = _
    rw [List.nil_append, List.take_left' (hlen ov1 fc1 _)]

theorem getD_append_left {α : Type} (a b : List α) (d : α) (j : ℕ)
    (h : j < a.length) : (a ++ b).getD j d = a.getD j d := by
  induction a generalizing j with
  | nil => simp at h
  | cons x t ih =>
      cases j with
      | zero => rfl
      | succ m => exact ih m (by simpa using h)

theorem getD_append_right {α : Type} (a b : List α) (d : α) (j : ℕ) :
    (a ++ b).getD (a.length + j) d = b.getD j d := by
  induction a with
  | nil => simp
  | cons x t ih => simpa [Nat.succ_add] using ih

theorem getD_map_range {α : Type} (f : ℕ → α) (k i : ℕ) (d : α)
    (h : i < k) : ((List.range k).map f).getD i d = f i := by
  have hlen : i < ((List.range k).map f).length := by simpa using h
  rw [List.getD_eq_getElem _ _ hlen, List.getElem_map, List.getElem_range]

theorem at0_replicate (c j : ℕ) : at0 (List.replicate c (0 : ℚ)) j = 0 := by
  unfold at0
  induction c generalizing j with
  | zero => simp
  | succ m ih =>
      cases j with
      | zero => rfl
      | succ i => simpa [List.replicate_succ] using ih i

theorem length_eyeRow (k i : ℕ) : (eyeRow k i).length = k := by
  unfold eyeRow
  simp

theorem at0_eyeRow (k i j : ℕ) (hi : i < k) :
    at0 (eyeRow k i) j = if j = i then 1 else 0 := by
  rcases Nat.lt_or_ge j k with hj | hj
  · unfold at0 eyeRow
    rw [getD_map_range _ _ _ _ hj]
  · have hne : j ≠ i := by omega
    rw [if_neg hne]
    unfold at0 eyeRow
    rw [List.getD_eq_default]
    simpa using hj

/-- Entry formula for one row of the kinematic block: zeros, a unit at
column `p + i`, zeros. -/
theorem at0_kinRowEntry (p k w i j : ℕ) (hi : i < k) :
    at0 (List.replicate p 0 ++ eyeRow k i ++ List.replicate w 0) j =
      if j = p + i then 1 else 0 := by
  rcases Nat.lt_or_ge j p with hj | hj
  · unfold at0
    rw [getD_append_left _ _ _ _ (by
      rw [List.length_append, List.length_replicate]
      unfold eyeRow
      simp
      omega)]
    rw [getD_append_left _ _ _ _ (by simpa using hj)]
    have h0 := at0_replicate p j
    unfold at0 at h0
    rw [h0, if_neg (by omega)]
  · obtain ⟨q, rfl⟩ := Nat.exists_eq_add_of_le hj
    rcases Nat.lt_or_ge q k with hq | hq
    · unfold at0
      rw [getD_append_left _ _ _ _ (by
        rw [List.length_append, List.length_replicate]
        unfold eyeRow
        simp
        omega)]
      rw [show p + q = (List.replicate p (0 : ℚ)).length + q from by simp,
        getD_append_right]
      have he := at0_eyeRow k i q hi
      unfold at0 at he
      rw [he]
      have : p + q = p + i ↔ q = i := by omega
      simp [this]
    · unfold at0
      have hsplit := getD_append_right
        (List.replicate p (0 : ℚ) ++ eyeRow k i) (List.replicate w 0) 0
        (q - k)
      rw [show (List.replicate p (0 : ℚ) ++ eyeRow k i).length + (q - k) =
        p + q from by
          rw [List.length_append, List.length_replicate, length_eyeRow]
          omega] at hsplit
      rw [hsplit]
      have h0 := at0_replicate w (q - k)
      unfold at0 at h0
      rw [h0, if_neg (by omega)]

/-- C4: with `override_kinematics = True`, every row of the fitted `A`
that corresponds to one of the first `n/2` physical coordinates (after the
bias row when `first_obs_const` is set) is exactly the unit row selecting
the matching velocity coordinate at column offset `n/2 + first_obs_const`,
and the corresponding rows of every fitted `B_i` (bias row included) are
exactly zero. -/
theorem fit_override_kinematics_rows (n m n_lift : ℕ) (C : List (List ℚ))
    (std : Option Standardizer) (fc : Bool) (mdl_coefs : List (List ℚ))
    (r : ℕ) (hr1 : bint fc ≤ r) (hr2 : r < bint fc + n / 2)
    (hn : 0 < n / 2) :
    (∀ j, at0 ((fit (edmdInit n m n_lift C) std true fc mdl_coefs).A.getD
      r []) j = if j = n / 2 + bint fc + (r - bint fc) then 1 else 0) ∧
    (∀ ii < m, ∀ rr < n / 2 + bint fc, ∀ j,
      at0 (((fit (edmdInit n m n_lift C) std true fc
        mdl_coefs).B.getD ii []).getD rr []) j = 0) := by
  constructor
  · intro j
    have hrow : (fit (edmdInit n m n_lift C) std true fc mdl_coefs).A.getD
        r [] = List.replicate (n / 2 + bint fc) 0 ++
          eyeRow (n / 2) (r - bint fc) ++
          List.replicate (n_lift - n - bint fc) 0 := by
      show (fitA true fc n n_lift
        (fitCoefs std mdl_coefs)).getD r [] = _
      unfold fitA
      rw [if_pos rfl]
      cases fc with
      | false =>
          simp only [Bool.false_eq_true, if_false, bint] at hr2 ⊢
          rw [getD_append_left _ _ _ _ (by
            unfold kin_dyn
            simp
            omega)]
          unfold kin_dyn
          rw [getD_map_range _ _ _ _ (by omega)]
          simp [bint]
      | true =>
          simp only [if_true]
          have hb : bint true = 1 := rfl
          rw [hb] at hr1 hr2
          have hstep : (zerosM 1 n_lift ++ (kin_dyn n n_lift true ++
              sliceCols (fitCoefs std mdl_coefs) 0 n_lift)).getD r [] =
              (kin_dyn n n_lift true ++
                sliceCols (fitCoefs std mdl_coefs) 0 n_lift).getD (r - 1)
                [] := by
            have h2 := getD_append_right (zerosM 1 n_lift)
              (kin_dyn n n_lift true ++
                sliceCols (fitCoefs std mdl_coefs) 0 n_lift) [] (r - 1)
            rw [show (zerosM 1 n_lift).length + (r - 1) = r from by
              unfold zerosM
              simp
              omega] at h2
            exact h2
          rw [List.append_assoc, hstep,
            getD_append_left _ _ _ _ (by
              unfold kin_dyn
              simp
              omega)]
          unfold kin_dyn
          rw [getD_map_range _ _ _ _ (by omega)]
          simp [bint]
    rw [hrow,
      at0_kinRowEntry (n / 2 + bint fc) (n / 2) (n_lift - n - bint fc)
        (r - bint fc) j (by omega)]
  · intro ii hii rr hrr j
    have hrow : ((fit (edmdInit n m n_lift C) std true fc
        mdl_coefs).B.getD ii []).getD rr [] =
        List.replicate n_lift 0 := by
      show ((([] : List (List (List ℚ))) ++ fitBs true fc n m n_lift
        (fitCoefs std mdl_coefs)).getD ii []).getD rr [] = _
      rw [List.nil_append]
      unfold fitBs
      rw [getD_map_range _ _ _ _ hii, if_pos rfl,
        getD_append_left _ _ _ _ (by
          unfold zerosM
          simpa using hrr)]
      unfold zerosM
      rw [getD_replicate_of_lt _ _ _ _ hrr]
    rw [hrow]
    exact at0_replicate n_lift j

/-- C4 witness: the kinematic rows at a concrete fit
(`n = 2`, `m = 1`, `n_lift = 4`, bias row present). -/
theorem fit_override_kinematics_rows_witness :
    (∀ j, at0 ((fit (edmdInit 2 1 4 [[(1 : ℚ), 0, 0, 0]]) none true true
      [[(5 : ℚ), 6, 7, 8, 9, 10, 11, 12]]).A.getD 1 []) j =
      if j = 2 / 2 + bint true + (1 - bint true) then 1 else 0) ∧
    (∀ ii < 1, ∀ rr < 2 / 2 + bint true, ∀ j,
      at0 (((fit (edmdInit 2 1 4 [[(1 : ℚ), 0, 0, 0]]) none true true
        [[(5 : ℚ), 6, 7, 8, 9, 10, 11, 12]]).B.getD ii []).getD rr [])
        j = 0) :=
  fit_override_kinematics_rows 2 1 4 [[(1 : ℚ), 0, 0, 0]] none true
    [[(5 : ℚ), 6, 7, 8, 9, 10, 11, 12]] 1 (by decide) (by decide)
    (by decide)

/-- Characterization of the iteration loop after the first pass: starting
the check with `u_prev` from stage `j` and state from stage `j + 1` of the
iterate sequence, the loop runs for the least number of further stages
until the control change is at most `eps`, capped by the fuel, and ends in
the corresponding iterate. -/
theorem stcLoop_char (solveStep : List (List ℚ) → List (List ℚ) →
    List (List ℚ) × List (List ℚ))
    (normF : List (List ℚ) → List (List ℚ) → ℚ) (eps : ℚ)
    (s0 : List (List ℚ) × List (List ℚ)) :
    ∀ f j,
    ((stcLoop solveStep normF eps f true
        (((mpcStep solveStep)^[j] s0).2)
        ((mpcStep solveStep)^[j + 1] s0)).1 ≤ f) ∧
    ((stcLoop solveStep normF eps f true
        (((mpcStep solveStep)^[j] s0).2)
        ((mpcStep solveStep)^[j + 1] s0)).1 < f →
      normF (((mpcStep solveStep)^[j + (stcLoop solveStep normF eps f true
          (((mpcStep solveStep)^[j] s0).2)
          ((mpcStep solveStep)^[j + 1] s0)).1] s0).2)
        (((mpcStep solveStep)^[j + (stcLoop solveStep normF eps f true
          (((mpcStep solveStep)^[j] s0).2)
          ((mpcStep solveStep)^[j + 1] s0)).1 + 1] s0).2) ≤ eps) ∧
    (∀ d, d < (stcLoop solveStep normF eps f true
        (((mpcStep solveStep)^[j] s0).2)
        ((mpcStep solveStep)^[j + 1] s0)).1 →
      normF (((mpcStep solveStep)^[j + d] s0).2)
        (((mpcStep solveStep)^[j + d + 1] s0).2) > eps) ∧
    ((stcLoop solveStep normF eps f true
        (((mpcStep solveStep)^[j] s0).2)
        ((mpcStep solveStep)^[j + 1] s0)).2 =
      (mpcStep solveStep)^[j + (stcLoop solveStep normF eps f true
        (((mpcStep solveStep)^[j] s0).2)
        ((mpcStep solveStep)^[j + 1] s0)).1 + 1] s0) := by
  intro f
  induction f with
  | zero =>
      intro j
      have h0 : stcLoop solveStep normF eps 0 true
          (((mpcStep solveStep)^[j] s0).2)
          ((mpcStep solveStep)^[j + 1] s0) =
          (0, (mpcStep solveStep)^[j + 1] s0) := rfl
      rw [h0]
      simp
  | succ g ih =>
      intro j
      by_cases hc : normF (((mpcStep solveStep)^[j] s0).2)
          (((mpcStep solveStep)^[j + 1] s0).2) > eps
      · have hit : mpcStep solveStep ((mpcStep solveStep)^[j + 1] s0) =
            (mpcStep solveStep)^[j + 2] s0 :=
          (Function.iterate_succ_apply' (mpcStep solveStep) (j + 1) s0).symm
        have hunf : stcLoop solveStep normF eps (g + 1) true
            (((mpcStep solveStep)^[j] s0).2)
            ((mpcStep solveStep)^[j + 1] s0) =
            ((stcLoop solveStep normF eps g true
              (((mpcStep solveStep)^[j + 1] s0).2)
              ((mpcStep solveStep)^[j + 2] s0)).1 + 1,
             (stcLoop solveStep normF eps g true
              (((mpcStep solveStep)^[j + 1] s0).2)
              ((mpcStep solveStep)^[j + 2] s0)).2) := by
          rw [stcLoop, if_pos (Or.inr hc), mpcStep, ← mpcStep, hit]
        have hunf1 : (stcLoop solveStep normF eps (g + 1) true
            (((mpcStep solveStep)^[j] s0).2)
            ((mpcStep solveStep)^[j + 1] s0)).1 =
            (stcLoop solveStep normF eps g true
              (((mpcStep solveStep)^[j + 1] s0).2)
              ((mpcStep solveStep)^[j + 2] s0)).1 + 1 := by
          rw [hunf]
        have hunf2 : (stcLoop solveStep normF eps (g + 1) true
            (((mpcStep solveStep)^[j] s0).2)
            ((mpcStep solveStep)^[j + 1] s0)).2 =
            (stcLoop solveStep normF eps g true
              (((mpcStep solveStep)^[j + 1] s0).2)
              ((mpcStep solveStep)^[j + 2] s0)).2 := by
          rw [hunf]
        have ihj := ih (j + 1)
        rw [show (j + 1) + 1 = j + 2 from rfl] at ihj
        obtain ⟨ih1, ih2, ih3, ih4⟩ := ihj
        rw [hunf1, hunf2]
        refine ⟨by omega, ?_, ?_, ?_⟩
        · intro hlt
          have hlt2 : (stcLoop solveStep normF eps g true
              (((mpcStep solveStep)^[j + 1] s0).2)
              ((mpcStep solveStep)^[j + 2] s0)).1 < g := by omega
          have h := ih2 hlt2
          rw [show j + 1 + (stcLoop solveStep normF eps g true
              (((mpcStep solveStep)^[j + 1] s0).2)
              ((mpcStep solveStep)^[j + 2] s0)).1 =
            j + ((stcLoop solveStep normF eps g true
              (((mpcStep solveStep)^[j + 1] s0).2)
              ((mpcStep solveStep)^[j + 2] s0)).1 + 1) from by omega] at h
          exact h
        · intro d hd
          cases d with
          | zero =>
              rw [Nat.add_zero]
              exact hc
          | succ e =>
              have he : e < (stcLoop solveStep normF eps g true
                  (((mpcStep solveStep)^[j + 1] s0).2)
                  ((mpcStep solveStep)^[j + 2] s0)).1 := by omega
              have h := ih3 e he
              rw [show j + 1 + e = j + (e + 1) from by omega] at h
              exact h
        · rw [ih4]
          congr 1
          omega
      · have hunf : stcLoop solveStep normF eps (g + 1) true
            (((mpcStep solveStep)^[j] s0).2)
            ((mpcStep solveStep)^[j + 1] s0) =
            (0, (mpcStep solveStep)^[j + 1] s0) := by
          rw [stcLoop, if_neg (by
            rintro (h1 | h2)
            · exact absurd h1 (by decide)
            · exact hc h2)]
        rw [hunf]
        refine ⟨by simp, ?_, by simp, by simp⟩
        intro _
        simpa using not_lt.1 hc

/-- C3: with `max_iter ≥ 1` and `eps > 0`, `solve_to_convergence`
terminates after at most `max_iter` iterations; it performs fewer than
`max_iter` iterations exactly when the norm of the change in the control
trajectory between two successive iterations falls to `eps` or below at
some iteration before the cap, and otherwise performs exactly `max_iter`
iterations; the `max_iter` keyword defaults to 1. -/
theorem solve_to_convergence_termination
    (solveStep : List (List ℚ) → List (List ℚ) →
      List (List ℚ) × List (List ℚ))
    (normF : List (List ℚ) → List (List ℚ) → ℚ) (eps : ℚ) (max_iter : ℕ)
    (z0 u0 : List (List ℚ)) (hmax : 1 ≤ max_iter) (heps : 0 < eps) :
    (solve_to_convergence solveStep normF eps max_iter z0 u0).1 ≤
      max_iter ∧
    ((solve_to_convergence solveStep normF eps max_iter z0 u0).1 <
        max_iter ↔
      ∃ k, 1 ≤ k ∧ k < max_iter ∧
        normF (((mpcStep solveStep)^[k - 1] (z0, u0)).2)
          (((mpcStep solveStep)^[k] (z0, u0)).2) ≤ eps) ∧
    solve_to_convergence_default_max_iter = 1 := by
  obtain ⟨M, rfl⟩ : ∃ M, max_iter = M + 1 :=
    ⟨max_iter - 1, by omega⟩
  have hunf : solve_to_convergence solveStep normF eps (M + 1) z0 u0 =
      ((stcLoop solveStep normF eps M true
        (((mpcStep solveStep)^[0] (z0, u0)).2)
        ((mpcStep solveStep)^[0 + 1] (z0, u0))).1 + 1,
       (stcLoop solveStep normF eps M true
        (((mpcStep solveStep)^[0] (z0, u0)).2)
        ((mpcStep solveStep)^[0 + 1] (z0, u0))).2) := by
    unfold solve_to_convergence
    show (if (false = false ∨ _) then _ else _) = _
    rw [if_pos (Or.inl rfl)]
    rfl
  obtain ⟨h1, h2, h3, _⟩ := stcLoop_char solveStep normF eps (z0, u0) M 0
  rw [hunf]
  refine ⟨by simpa using Nat.add_le_add_right h1 1, ?_, rfl⟩
  constructor
  · intro hlt
    have hlt2 : (stcLoop solveStep normF eps M true
        (((mpcStep solveStep)^[0] (z0, u0)).2)
        ((mpcStep solveStep)^[0 + 1] (z0, u0))).1 < M := by
      simpa using hlt
    refine ⟨(stcLoop solveStep normF eps M true
        (((mpcStep solveStep)^[0] (z0, u0)).2)
        ((mpcStep solveStep)^[0 + 1] (z0, u0))).1 + 1,
      by omega, by simpa using hlt, ?_⟩
    have := h2 hlt2
    simpa using this
  · rintro ⟨k, hk1, hk2, hk3⟩
    by_contra hge
    have hfull : (stcLoop solveStep normF eps M true
        (((mpcStep solveStep)^[0] (z0, u0)).2)
        ((mpcStep solveStep)^[0 + 1] (z0, u0))).1 = M := by
      omega
    have hd : k - 1 < (stcLoop solveStep normF eps M true
        (((mpcStep solveStep)^[0] (z0, u0)).2)
        ((mpcStep solveStep)^[0 + 1] (z0, u0))).1 := by
      omega
    have := h3 (k - 1) hd
    rw [show 0 + (k - 1) = k - 1 from by omega,
      show k - 1 + 1 = k from by omega] at this
    exact absurd hk3 (by exact not_le.2 this)

def stcWitStep : List (List ℚ) → List (List ℚ) →
    List (List ℚ) × List (List ℚ) :=
  fun z u => (z.map (fun r => r.map (fun _ => 0)),
    u.map (fun r => r.map (fun _ => 0)))

def stcWitNorm : List (List ℚ) → List (List ℚ) → ℚ := fun _ _ => 0

/-- C3 witness: with `stcWitStep` returning zero corrections, `stcWitNorm`
the constant zero and `eps = 1`, the loop runs once and stops. -/
theorem solve_to_convergence_termination_witness :
    ((solve_to_convergence stcWitStep stcWitNorm 1 5
        [[(0 : ℚ)]] [[(0 : ℚ)]]).1 ≤ 5) ∧
    (((solve_to_convergence stcWitStep stcWitNorm 1 5
        [[(0 : ℚ)]] [[(0 : ℚ)]]).1 < 5) ↔
      ∃ k, 1 ≤ k ∧ k < 5 ∧
        stcWitNorm
          (((mpcStep stcWitStep)^[k - 1] ([[(0 : ℚ)]], [[(0 : ℚ)]])).2)
          (((mpcStep stcWitStep)^[k] ([[(0 : ℚ)]], [[(0 : ℚ)]])).2) ≤ 1) ∧
    solve_to_convergence_default_max_iter = 1 :=
  solve_to_convergence_termination stcWitStep stcWitNorm 1 5
    [[(0 : ℚ)]] [[(0 : ℚ)]] (by omega) (by norm_num)

/-- C7: every iteration of `solve_to_convergence` applies the QP solution
as an additive correction to the trajectory guess: the final trajectory is
the `n`-fold iterate of the correction step from the initial guess, and
each step equals the previous guess plus the returned `(dz.T, du.T)`
(never a replacement of the guess by the solver output). -/
theorem solve_to_convergence_additive_step
    (solveStep : List (List ℚ) → List (List ℚ) →
      List (List ℚ) × List (List ℚ))
    (normF : List (List ℚ) → List (List ℚ) → ℚ) (eps : ℚ) (max_iter : ℕ)
    (z0 u0 : List (List ℚ)) :
    (solve_to_convergence solveStep normF eps max_iter z0 u0).2 =
      (mpcStep solveStep)^[(solve_to_convergence solveStep normF eps
        max_iter z0 u0).1] (z0, u0) ∧
    (∀ k, (mpcStep solveStep)^[k + 1] (z0, u0) =
      (addM ((mpcStep solveStep)^[k] (z0, u0)).1
        (solveStep ((mpcStep solveStep)^[k] (z0, u0)).1
          ((mpcStep solveStep)^[k] (z0, u0)).2).1,
       addM ((mpcStep solveStep)^[k] (z0, u0)).2
        (solveStep ((mpcStep solveStep)^[k] (z0, u0)).1
          ((mpcStep solveStep)^[k] (z0, u0)).2).2)) := by
  constructor
  · cases max_iter with
    | zero => rfl
    | succ M =>
        have hunf : solve_to_convergence solveStep normF eps (M + 1)
            z0 u0 =
            ((stcLoop solveStep normF eps M true
              (((mpcStep solveStep)^[0] (z0, u0)).2)
              ((mpcStep solveStep)^[0 + 1] (z0, u0))).1 + 1,
             (stcLoop solveStep normF eps M true
              (((mpcStep solveStep)^[0] (z0, u0)).2)
              ((mpcStep solveStep)^[0 + 1] (z0, u0))).2) := by
          unfold solve_to_convergence
          show (if (false = false ∨ _) then _ else _) = _
          rw [if_pos (Or.inl rfl)]
          rfl
        obtain ⟨_, _, _, h4⟩ := stcLoop_char solveStep normF eps
          (z0, u0) M 0
        rw [hunf, h4]
        congr 1
        omega
  · intro k
    rw [Function.iterate_succ_apply']
    rfl

/-! ## C6: the constraint bound vectors -/

theorem length_tileL (v : List ℚ) (n : ℕ) :
    (tileL v n).length = n * v.length := by
  unfold tileL
  rw [length_flatten_uniform _ v.length
    (fun b hb => by rw [List.eq_of_mem_replicate hb]), List.length_replicate]

theorem at0_take (l : List ℚ) (k j : ℕ) (hj : j < k) :
    at0 (l.take k) j = at0 l j := by
  unfold at0
  induction l generalizing k j with
  | nil => simp
  | cons x t ih =>
      cases k with
      | zero => omega
      | succ m =>
          cases j with
          | zero => rfl
          | succ i => exact ih m i (by omega)

theorem getD_map_of_lt {α β : Type} (f : α → β) (l : List α) (t : ℕ)
    (d : β) (d0 : α) (ht : t < l.length) :
    (l.map f).getD t d = f (l.getD t d0) := by
  rw [List.getD_eq_getElem _ _ (by simpa using ht), List.getElem_map,
    List.getD_eq_getElem _ _ ht]

theorem blockIdx_lt (n k t i : ℕ) (ht : t < n) (hi : i < k) :
    t * k + i < n * k :=
  calc t * k + i < t * k + k := by omega
  _ = (t + 1) * k := by ring
  _ ≤ n * k := Nat.mul_le_mul ht (le_refl k)

/-- Entry `t * nu + i` of an input-bound block
`np.tile(bound, N) - u_init.flatten()`. -/
theorem at0_inputBlock (N nu : ℕ) (bound : List ℚ) (us : List (List ℚ))
    (t i : ℕ) (hb : bound.length = nu) (hus : ∀ r ∈ us, r.length = nu)
    (husN : us.length = N) (ht : t < N) (hi : i < nu) :
    at0 (subL (tileL bound N) us.flatten) (t * nu + i) =
    at0 bound i - at0 (us.getD t []) i := by
  have hidx : t * nu + i < N * nu := blockIdx_lt N nu t i ht hi
  have h1 : t * nu + i < (tileL bound N).length := by
    rw [length_tileL, hb]; exact hidx
  have h2 : t * nu + i < us.flatten.length := by
    rw [length_flatten_uniform us nu hus, husN]; exact hidx
  have h3 : at0 (tileL bound N) (t * nu + i) = at0 bound i := by
    rw [show t * nu + i = t * bound.length + i from by rw [hb]]
    exact at0_tileL bound N t i ht (by rw [hb]; exact hi)
  have h4 : at0 us.flatten (t * nu + i) = at0 (us.getD t []) i :=
    at0_flatten_uniform us nu hus t i (by rw [husN]; exact ht) hi
  rw [at0_subL _ _ _ h1 h2, h3, h4]

/-- Entry `t * ns + rr` of a state-bound block
`np.tile(bound, N + 1) - (C @ z_init.T).flatten(order = F)`. -/
theorem at0_stateBlock (N ns : ℕ) (Crows : List (List ℚ)) (bound : List ℚ)
    (zs : List (List ℚ)) (t rr : ℕ) (hb : bound.length = ns)
    (hC : Crows.length = ns) (hzsN : zs.length = N + 1)
    (ht : t < N + 1) (hrr : rr < ns) :
    at0 (subL (tileL bound (N + 1))
      ((zs.map (fun zt => matVecRows Crows zt)).flatten)) (t * ns + rr) =
    at0 bound rr - at0 (matVecRows Crows (zs.getD t [])) rr := by
  have hmvr : ∀ b ∈ zs.map (fun zt => matVecRows Crows zt),
      b.length = ns := by
    intro b hbm
    obtain ⟨zt, _, rfl⟩ := List.mem_map.1 hbm
    simp only [matVecRows, List.length_map]
    exact hC
  have hidx : t * ns + rr < (N + 1) * ns :=
    blockIdx_lt (N + 1) ns t rr ht hrr
  have h1 : t * ns + rr < (tileL bound (N + 1)).length := by
    rw [length_tileL, hb]; exact hidx
  have h2 : t * ns + rr <
      ((zs.map (fun zt => matVecRows Crows zt)).flatten).length := by
    rw [length_flatten_uniform _ ns hmvr, List.length_map, hzsN]; exact hidx
  have h3 : at0 (tileL bound (N + 1)) (t * ns + rr) = at0 bound rr := by
    rw [show t * ns + rr = t * bound.length + rr from by rw [hb]]
    exact at0_tileL bound (N + 1) t rr ht (by rw [hb]; exact hrr)
  have h4 : at0 ((zs.map (fun zt => matVecRows Crows zt)).flatten)
      (t * ns + rr) = at0 (matVecRows Crows (zs.getD t [])) rr := by
    rw [at0_flatten_uniform _ ns hmvr t rr
      (by rw [List.length_map, hzsN]; exact ht) hrr,
      getD_map_of_lt _ zs t [] [] (by rw [hzsN]; exact ht)]
  rw [at0_subL _ _ _ h1 h2, h3, h4]

/-- C6: `construct_constraint_vecs_` builds the QP bounds in deviation
coordinates: the equality rows have identical lower and upper bounds, and
their first `nx` entries equal `-(z - z_init[0])`, pinning the stage-0
state correction to `z - z_init[0]`; every input bound entry is the
physical input bound minus the guessed input at that stage, every state
bound entry is the physical state bound minus `C @ z_init[t]`; and with
`terminal_constraint` set, the last `ns` entries of both the lower and
the upper state bounds are overridden to the same value
`xr - C @ z_init[-1]`. -/
theorem construct_constraint_vecs_bounds (N nx nu ns : ℕ)
    (Crows : List (List ℚ)) (umin umax xmin xmax xr : List ℚ)
    (tc : Bool) (z : List ℚ) (z_init u_init r_lst : List (List ℚ))
    (hNz : z_init.length = N + 1) (hNu : u_init.length = N)
    (hNr : r_lst.length = N) (hz : z.length = nx)
    (hz0 : ∀ r ∈ z_init, r.length = nx)
    (hu0 : ∀ r ∈ u_init, r.length = nu)
    (hr0 : ∀ r ∈ r_lst, r.length = nx)
    (hum : umin.length = nu) (huM : umax.length = nu)
    (hxm : xmin.length = ns) (hxM : xmax.length = ns)
    (hxr : xr.length = ns) (hC : Crows.length = ns) :
    (∀ j, j < nx + N * nx →
      at0 (construct_constraint_vecs_ N Crows umin umax xmin xmax xr tc
        z z_init u_init r_lst).1 j =
      at0 (construct_constraint_vecs_ N Crows umin umax xmin xmax xr tc
        z z_init u_init r_lst).2 j) ∧
    (∀ j, j < nx →
      at0 (construct_constraint_vecs_ N Crows umin umax xmin xmax xr tc
        z z_init u_init r_lst).1 j =
      -(at0 z j - at0 (z_init.headD []) j)) ∧
    (∀ t i, t < N → i < nu →
      at0 (construct_constraint_vecs_ N Crows umin umax xmin xmax xr tc
        z z_init u_init r_lst).1 (nx + N * nx + (t * nu + i)) =
        at0 umin i - at0 (u_init.getD t []) i ∧
      at0 (construct_constraint_vecs_ N Crows umin umax xmin xmax xr tc
        z z_init u_init r_lst).2 (nx + N * nx + (t * nu + i)) =
        at0 umax i - at0 (u_init.getD t []) i) ∧
    (∀ t rr, rr < ns → t < N + 1 → (tc = true → t < N) →
      at0 (construct_constraint_vecs_ N Crows umin umax xmin xmax xr tc
        z z_init u_init r_lst).1
        (nx + N * nx + (N * nu + (t * ns + rr))) =
        at0 xmin rr - at0 (matVecRows Crows (z_init.getD t [])) rr ∧
      at0 (construct_constraint_vecs_ N Crows umin umax xmin xmax xr tc
        z z_init u_init r_lst).2
        (nx + N * nx + (N * nu + (t * ns + rr))) =
        at0 xmax rr - at0 (matVecRows Crows (z_init.getD t [])) rr) ∧
    (tc = true → ∀ rr, rr < ns →
      at0 (construct_constraint_vecs_ N Crows umin umax xmin xmax xr tc
        z z_init u_init r_lst).1
        (nx + N * nx + (N * nu + (N * ns + rr))) =
        at0 xr rr - at0 (matVecRows Crows (z_init.getLastD [])) rr ∧
      at0 (construct_constraint_vecs_ N Crows umin umax xmin xmax xr tc
        z z_init u_init r_lst).2
        (nx + N * nx + (N * nu + (N * ns + rr))) =
        at0 xr rr - at0 (matVecRows Crows (z_init.getLastD [])) rr) := by
  obtain ⟨z0, zr, rfl⟩ : ∃ a l, z_init = a :: l := by
    cases z_init with
    | nil => simp at hNz
    | cons a l => exact ⟨a, l, rfl⟩
  have hz00 : z0.length = nx := hz0 z0 (by simp)
  have hfst : (construct_constraint_vecs_ N Crows umin umax xmin xmax xr tc
      z (z0 :: zr) u_init r_lst).1 =
      ((negL (subL z z0) ++ negL r_lst.flatten) ++
       subL (tileL umin N) u_init.flatten) ++
      (if tc = true then
          (subL (tileL xmin (N + 1))
            (((z0 :: zr).map (fun zt => matVecRows Crows zt)).flatten)).take
            ((subL (tileL xmin (N + 1))
              (((z0 :: zr).map (fun zt =>
                matVecRows Crows zt)).flatten)).length - xr.length) ++
          subL xr (matVecRows Crows ((z0 :: zr).getLastD []))
        else
          subL (tileL xmin (N + 1))
            (((z0 :: zr).map (fun zt => matVecRows Crows zt)).flatten)) :=
    rfl
  have hsnd : (construct_constraint_vecs_ N Crows umin umax xmin xmax xr tc
      z (z0 :: zr) u_init r_lst).2 =
      ((negL (subL z z0) ++ negL r_lst.flatten) ++
       subL (tileL umax N) u_init.flatten) ++
      (if tc = true then
          (subL (tileL xmax (N + 1))
            (((z0 :: zr).map (fun zt => matVecRows Crows zt)).flatten)).take
            ((subL (tileL xmax (N + 1))
              (((z0 :: zr).map (fun zt =>
                matVecRows Crows zt)).flatten)).length - xr.length) ++
          subL xr (matVecRows Crows ((z0 :: zr).getLastD []))
        else
          subL (tileL xmax (N + 1))
            (((z0 :: zr).map (fun zt => matVecRows Crows zt)).flatten)) :=
    rfl
  have hmvr : ∀ zt : List ℚ, (matVecRows Crows zt).length = ns := by
    intro zt
    simp only [matVecRows, List.length_map]
    exact hC
  have hmvm : ∀ b ∈ (z0 :: zr).map (fun zt => matVecRows Crows zt),
      b.length = ns := by
    intro b hbm
    obtain ⟨zt, _, rfl⟩ := List.mem_map.1 hbm
    exact hmvr zt
  have hlz : (subL z z0).length = nx := by
    simp only [subL, List.length_zipWith]
    rw [hz, hz00, Nat.min_self]
  have hleq : (negL (subL z z0) ++ negL r_lst.flatten).length =
      nx + N * nx := by
    simp only [List.length_append, negL, List.length_map]
    rw [hlz, length_flatten_uniform r_lst nx hr0, hNr]
  have hcz : (((z0 :: zr).map (fun zt =>
      matVecRows Crows zt)).flatten).length = (N + 1) * ns := by
    rw [length_flatten_uniform _ ns hmvm, List.length_map, hNz]
  have hlum : (subL (tileL umin N) u_init.flatten).length = N * nu := by
    simp only [subL, List.length_zipWith]
    rw [length_tileL, hum, length_flatten_uniform u_init nu hu0, hNu,
      Nat.min_self]
  have hluM : (subL (tileL umax N) u_init.flatten).length = N * nu := by
    simp only [subL, List.length_zipWith]
    rw [length_tileL, huM, length_flatten_uniform u_init nu hu0, hNu,
      Nat.min_self]
  have hlxm : (subL (tileL xmin (N + 1))
      (((z0 :: zr).map (fun zt => matVecRows Crows zt)).flatten)).length =
      (N + 1) * ns := by
    simp only [subL, List.length_zipWith]
    rw [length_tileL, hxm, hcz, Nat.min_self]
  have hlxM : (subL (tileL xmax (N + 1))
      (((z0 :: zr).map (fun zt => matVecRows Crows zt)).flatten)).length =
      (N + 1) * ns := by
    simp only [subL, List.length_zipWith]
    rw [length_tileL, hxM, hcz, Nat.min_self]
  have htkm : (subL (tileL xmin (N + 1))
      (((z0 :: zr).map (fun zt =>
        matVecRows Crows zt)).flatten)).length - xr.length = N * ns := by
    rw [hlxm, hxr, show (N + 1) * ns = N * ns + ns from by ring]
    omega
  have htkM : (subL (tileL xmax (N + 1))
      (((z0 :: zr).map (fun zt =>
        matVecRows Crows zt)).flatten)).length - xr.length = N * ns := by
    rw [hlxM, hxr, show (N + 1) * ns = N * ns + ns from by ring]
    omega
  have hNns : N * ns ≤ (N + 1) * ns := Nat.mul_le_mul (Nat.le_succ N)
    (le_refl ns)
  refine ⟨?_, ?_, ?_, ?_, ?_⟩
  · intro j hj
    have e1 : at0 (construct_constraint_vecs_ N Crows umin umax xmin xmax
        xr tc z (z0 :: zr) u_init r_lst).1 j =
        at0 (negL (subL z z0) ++ negL r_lst.flatten) j := by
      rw [hfst, List.append_assoc,
        at0_append_left _ _ j (by rw [hleq]; exact hj)]
    have e2 : at0 (construct_constraint_vecs_ N Crows umin umax xmin xmax
        xr tc z (z0 :: zr) u_init r_lst).2 j =
        at0 (negL (subL z z0) ++ negL r_lst.flatten) j := by
      rw [hsnd, List.append_assoc,
        at0_append_left _ _ j (by rw [hleq]; exact hj)]
    rw [e1, e2]
  · intro j hj
    rw [hfst, List.append_assoc, at0_append_left _ _ j (by rw [hleq]; omega),
      at0_append_left _ _ j
        (by simp only [negL, List.length_map]; rw [hlz]; exact hj),
      at0_negL _ j (by rw [hlz]; exact hj),
      at0_subL _ _ _ (by rw [hz]; exact hj) (by rw [hz00]; exact hj)]
    rfl
  · intro t i ht hi
    have hidx : t * nu + i < N * nu := blockIdx_lt N nu t i ht hi
    constructor
    · rw [hfst, List.append_assoc,
        show nx + N * nx + (t * nu + i) =
          (negL (subL z z0) ++ negL r_lst.flatten).length + (t * nu + i)
          from by rw [hleq],
        at0_append_right,
        at0_append_left _ _ _ (by rw [hlum]; exact hidx)]
      exact at0_inputBlock N nu umin u_init t i hum hu0 hNu ht hi
    · rw [hsnd, List.append_assoc,
        show nx + N * nx + (t * nu + i) =
          (negL (subL z z0) ++ negL r_lst.flatten).length + (t * nu + i)
          from by rw [hleq],
        at0_append_right,
        at0_append_left _ _ _ (by rw [hluM]; exact hidx)]
      exact at0_inputBlock N nu umax u_init t i huM hu0 hNu ht hi
  · intro t rr hrr ht htc
    constructor
    · rw [hfst, List.append_assoc,
        show nx + N * nx + (N * nu + (t * ns + rr)) =
          (negL (subL z z0) ++ negL r_lst.flatten).length +
            (N * nu + (t * ns + rr)) from by rw [hleq],
        at0_append_right,
        show N * nu + (t * ns + rr) =
          (subL (tileL umin N) u_init.flatten).length + (t * ns + rr)
          from by rw [hlum],
        at0_append_right]
      cases tc with
      | false =>
          rw [if_neg (by decide)]
          exact at0_stateBlock N ns Crows xmin (z0 :: zr) t rr hxm hC hNz
            ht hrr
      | true =>
          have htN : t < N := htc rfl
          have hidx2 : t * ns + rr < N * ns :=
            blockIdx_lt N ns t rr htN hrr
          rw [if_pos rfl, htkm,
            at0_append_left _ _ _ (by
              rw [List.length_take, hlxm]
              exact lt_min hidx2 (lt_of_lt_of_le hidx2 hNns)),
            at0_take _ _ _ hidx2]
          exact at0_stateBlock N ns Crows xmin (z0 :: zr) t rr hxm hC hNz
            ht hrr
    · rw [hsnd, List.append_assoc,
        show nx + N * nx + (N * nu + (t * ns + rr)) =
          (negL (subL z z0) ++ negL r_lst.flatten).length +
            (N * nu + (t * ns + rr)) from by rw [hleq],
        at0_append_right,
        show N * nu + (t * ns + rr) =
          (subL (tileL umax N) u_init.flatten).length + (t * ns + rr)
          from by rw [hluM],
        at0_append_right]
      cases tc with
      | false =>
          rw [if_neg (by decide)]
          exact at0_stateBlock N ns Crows xmax (z0 :: zr) t rr hxM hC hNz
            ht hrr
      | true =>
          have htN : t < N := htc rfl
          have hidx2 : t * ns + rr < N * ns :=
            blockIdx_lt N ns t rr htN hrr
          rw [if_pos rfl, htkM,
            at0_append_left _ _ _ (by
              rw [List.length_take, hlxM]
              exact lt_min hidx2 (lt_of_lt_of_le hidx2 hNns)),
            at0_take _ _ _ hidx2]
          exact at0_stateBlock N ns Crows xmax (z0 :: zr) t rr hxM hC hNz
            ht hrr
  · intro htc rr hrr
    subst htc
    have hltm : ((subL (tileL xmin (N + 1))
        (((z0 :: zr).map (fun zt =>
          matVecRows Crows zt)).flatten)).take (N * ns)).length =
        N * ns := by
      rw [List.length_take, hlxm]
      exact Nat.min_eq_left hNns
    have hltM : ((subL (tileL xmax (N + 1))
        (((z0 :: zr).map (fun zt =>
          matVecRows Crows zt)).flatten)).take (N * ns)).length =
        N * ns := by
      rw [List.length_take, hlxM]
      exact Nat.min_eq_left hNns
    constructor
    · rw [hfst, List.append_assoc,
        show nx + N * nx + (N * nu + (N * ns + rr)) =
          (negL (subL z z0) ++ negL r_lst.flatten).length +
            (N * nu + (N * ns + rr)) from by rw [hleq],
        at0_append_right,
        show N * nu + (N * ns + rr) =
          (subL (tileL umin N) u_init.flatten).length + (N * ns + rr)
          from by rw [hlum],
        at0_append_right, if_pos rfl, htkm,
        show N * ns + rr = ((subL (tileL xmin (N + 1))
          (((z0 :: zr).map (fun zt =>
            matVecRows Crows zt)).flatten)).take (N * ns)).length + rr
          from by rw [hltm],
        at0_append_right,
        at0_subL _ _ _ (by rw [hxr]; exact hrr)
          (by rw [hmvr]; exact hrr)]
    · rw [hsnd, List.append_assoc,
        show nx + N * nx + (N * nu + (N * ns + rr)) =
          (negL (subL z z0) ++ negL r_lst.flatten).length +
            (N * nu + (N * ns + rr)) from by rw [hleq],
        at0_append_right,
        show N * nu + (N * ns + rr) =
          (subL (tileL umax N) u_init.flatten).length + (N * ns + rr)
          from by rw [hluM],
        at0_append_right, if_pos rfl, htkM,
        show N * ns + rr = ((subL (tileL xmax (N + 1))
          (((z0 :: zr).map (fun zt =>
            matVecRows Crows zt)).flatten)).take (N * ns)).length + rr
          from by rw [hltM],
        at0_append_right,
        at0_subL _ _ _ (by rw [hxr]; exact hrr)
          (by rw [hmvr]; exact hrr)]

/-- C6 witness: the bound structure instantiated at a one-dimensional
model with horizon 1 and the terminal constraint active. -/
theorem construct_constraint_vecs_bounds_witness :
    (∀ j, j < 1 + 1 * 1 →
      at0 (construct_constraint_vecs_ 1 [[1]] [-1] [1] [-2] [2] [0] true
        [(1 : ℚ)] [[0], [0]] [[0]] [[0]]).1 j =
      at0 (construct_constraint_vecs_ 1 [[1]] [-1] [1] [-2] [2] [0] true
        [(1 : ℚ)] [[0], [0]] [[0]] [[0]]).2 j) ∧
    (∀ j, j < 1 →
      at0 (construct_constraint_vecs_ 1 [[1]] [-1] [1] [-2] [2] [0] true
        [(1 : ℚ)] [[0], [0]] [[0]] [[0]]).1 j =
      -(at0 [(1 : ℚ)] j - at0 ([[(0 : ℚ)], [0]].headD []) j)) ∧
    (∀ t i, t < 1 → i < 1 →
      at0 (construct_constraint_vecs_ 1 [[1]] [-1] [1] [-2] [2] [0] true
        [(1 : ℚ)] [[0], [0]] [[0]] [[0]]).1 (1 + 1 * 1 + (t * 1 + i)) =
        at0 [(-1 : ℚ)] i - at0 ([[(0 : ℚ)]].getD t []) i ∧
      at0 (construct_constraint_vecs_ 1 [[1]] [-1] [1] [-2] [2] [0] true
        [(1 : ℚ)] [[0], [0]] [[0]] [[0]]).2 (1 + 1 * 1 + (t * 1 + i)) =
        at0 [(1 : ℚ)] i - at0 ([[(0 : ℚ)]].getD t []) i) ∧
    (∀ t rr, rr < 1 → t < 1 + 1 → (true = true → t < 1) →
      at0 (construct_constraint_vecs_ 1 [[1]] [-1] [1] [-2] [2] [0] true
        [(1 : ℚ)] [[0], [0]] [[0]] [[0]]).1 (1 + 1 * 1 + (1 * 1 + (t * 1 + rr))) =
        at0 [(-2 : ℚ)] rr -
          at0 (matVecRows [[1]] ([[(0 : ℚ)], [0]].getD t [])) rr ∧
      at0 (construct_constraint_vecs_ 1 [[1]] [-1] [1] [-2] [2] [0] true
        [(1 : ℚ)] [[0], [0]] [[0]] [[0]]).2 (1 + 1 * 1 + (1 * 1 + (t * 1 + rr))) =
        at0 [(2 : ℚ)] rr -
          at0 (matVecRows [[1]] ([[(0 : ℚ)], [0]].getD t [])) rr) ∧
    (true = true → ∀ rr, rr < 1 →
      at0 (construct_constraint_vecs_ 1 [[1]] [-1] [1] [-2] [2] [0] true
        [(1 : ℚ)] [[0], [0]] [[0]] [[0]]).1 (1 + 1 * 1 + (1 * 1 + (1 * 1 + rr))) =
        at0 [(0 : ℚ)] rr -
          at0 (matVecRows [[1]] ([[(0 : ℚ)], [0]].getLastD [])) rr ∧
      at0 (construct_constraint_vecs_ 1 [[1]] [-1] [1] [-2] [2] [0] true
        [(1 : ℚ)] [[0], [0]] [[0]] [[0]]).2 (1 + 1 * 1 + (1 * 1 + (1 * 1 + rr))) =
        at0 [(0 : ℚ)] rr -
          at0 (matVecRows [[1]] ([[(0 : ℚ)], [0]].getLastD [])) rr) :=
  construct_constraint_vecs_bounds 1 1 1 1 [[1]] [-1] [1] [-2] [2] [0]
    true [(1 : ℚ)] [[0], [0]] [[0]] [[0]]
    (by decide) (by decide) (by decide) (by decide) (by decide)
    (by decide) (by decide) (by decide) (by decide) (by decide)
    (by decide) (by decide) (by decide)

/-! ## C5: structure of the bilinear lift -/

/-- The row produced for one time step after folding the first `j`
control channels into the bilinear lift. -/
def pRow (j : ℕ) (zrow urow : List ℚ) : List ℚ :=
  zrow ++ ((List.range j).map (fun k =>
    zrow.map (fun v => v * at0 urow k))).flatten

theorem pRow_zero (zrow urow : List ℚ) : pRow 0 zrow urow = zrow := by
  simp [pRow]

theorem pRow_succ (j : ℕ) (zrow urow : List ℚ) :
    pRow (j + 1) zrow urow =
    pRow j zrow urow ++ zrow.map (fun v => v * at0 urow j) := by
  simp [pRow, List.range_succ]

theorem zipW3_zipWith_left {α β γ δ : Type} (F : γ → α → β → δ)
    (g : α → β → γ) (a : List α) (b : List β) :
    zipW3 F (List.zipWith g a b) a b =
    List.zipWith (fun x y => F (g x y) x y) a b := by
  induction a generalizing b with
  | nil => rfl
  | cons x as ih =>
      cases b with
      | nil => rfl
      | cons y bs =>
          simp only [List.zipWith_cons_cons, zipW3]
          rw [ih]

theorem zipWith_fst_of_le {α β : Type} (a : List α) (b : List β)
    (h : a.length ≤ b.length) :
    List.zipWith (fun x _ => x) a b = a := by
  induction a generalizing b with
  | nil => rfl
  | cons x t ih =>
      cases b with
      | nil => simp at h
      | cons y s =>
          simp only [List.zipWith_cons_cons]
          rw [ih s (by simpa using h)]

theorem zipWith_pRow_zero (z u : List (List (List ℚ)))
    (hzu : z.length ≤ u.length)
    (hin : ∀ p ∈ List.zip z u, p.1.length ≤ p.2.length) :
    List.zipWith (fun zT uT => List.zipWith (fun zrow urow =>
      pRow 0 zrow urow) zT uT) z u = z := by
  induction z generalizing u with
  | nil => rfl
  | cons zT zs ih =>
      cases u with
      | nil => simp at hzu
      | cons uT us =>
          simp only [List.zipWith_cons_cons]
          rw [ih us (by simpa using hzu)
            (fun p hp => hin p (by simp [List.zip_cons_cons, hp]))]
          have hrow : List.zipWith (fun zrow urow => pRow 0 zrow urow)
              zT uT = zT := by
            rw [zipWith_ext _ (fun x _ => x) zT uT
              (fun x y => pRow_zero x y)]
            exact zipWith_fst_of_le zT uT
              (hin (zT, uT) (by simp [List.zip_cons_cons]))
          rw [hrow]

/-- The fold over control channels builds exactly the per-row partial
augmentation `pRow`. -/
theorem bilinearLift_fold_char
    (z u : List (List (List ℚ))) (hzu : z.length ≤ u.length)
    (hin : ∀ p ∈ List.zip z u, p.1.length ≤ p.2.length) (m : ℕ) :
    (List.range m).foldl (fun zb ii =>
      zipW3 (fun zbT zT uT =>
        zipW3 (fun zbrow zrow urow =>
          zbrow ++ zrow.map (fun v => v * at0 urow ii)) zbT zT uT)
        zb z u) z =
    List.zipWith (fun zT uT => List.zipWith (fun zrow urow =>
      pRow m zrow urow) zT uT) z u := by
  induction m with
  | zero =>
      rw [List.range_zero, List.foldl_nil]
      exact (zipWith_pRow_zero z u hzu hin).symm
  | succ j ih =>
      rw [List.range_succ, List.foldl_append, ih, List.foldl_cons,
        List.foldl_nil, zipW3_zipWith_left]
      apply zipWith_congr_mem
      intro zT _ uT _
      rw [zipW3_zipWith_left]
      apply zipWith_congr_mem
      intro zr _ ur _
      exact (pRow_succ j zr ur).symm

theorem drop_append_len {α : Type} (a b : List α) (i : ℕ) :
    (a ++ b).drop (a.length + i) = b.drop i := by
  induction a with
  | nil => simp
  | cons x t ih => simpa [Nat.succ_add] using ih

theorem flatten_drop_take_uniform (L : List (List ℚ)) (n k : ℕ)
    (h : ∀ b ∈ L, b.length = n) (hk : k < L.length) :
    ((L.flatten).drop (k * n)).take n = L.getD k [] := by
  induction L generalizing k with
  | nil => simp at hk
  | cons b rest ih =>
      cases k with
      | zero =>
          simp only [List.flatten_cons, Nat.zero_mul, List.drop_zero]
          exact List.take_left' (h b (by simp))
      | succ j =>
          rw [List.flatten_cons,
            show (j + 1) * n = b.length + j * n from by
              rw [h b (by simp)]; ring,
            drop_append_len]
          exact ih j (fun x hx => h x (by simp [hx])) (by simpa using hk)

/-- C5: `lift(x, u)` appends one block per control channel: it equals the
plain lift of each time step with each row extended by the bilinear
blocks, and every extended row has length `(m + 1) * n_lift`, begins with
the plain lifted row, and its `k`-th appended block (`k = 1..m`) is the
plain lifted row multiplied elementwise by control channel `k - 1`. -/
theorem bilinearLift_blocks
    (baseLift : List (List ℚ) → List (List ℚ) → List (List ℚ))
    (m n_lift : ℕ) (x u : List (List (List ℚ)))
    (hin : ∀ p ∈ List.zip (List.zipWith (fun xi ui =>
      baseLift xi.dropLast ui) x u) u, p.1.length ≤ p.2.length) :
    bilinearLift baseLift m x u =
      List.zipWith (fun zT uT => List.zipWith (fun zrow urow =>
        augRow m zrow urow) zT uT)
        (List.zipWith (fun xi ui => baseLift xi.dropLast ui) x u) u ∧
    (∀ zrow urow : List ℚ, zrow.length = n_lift →
      (augRow m zrow urow).length = (m + 1) * n_lift ∧
      (augRow m zrow urow).take n_lift = zrow ∧
      (∀ k, k < m →
        ((augRow m zrow urow).drop ((k + 1) * n_lift)).take n_lift =
          zrow.map (fun v => v * at0 urow k))) := by
  constructor
  · exact bilinearLift_fold_char
      (List.zipWith (fun xi ui => baseLift xi.dropLast ui) x u) u
      (by rw [List.length_zipWith]; exact min_le_right _ _) hin m
  · intro zrow urow hlen
    have hblocks : ∀ b ∈ (List.range m).map (fun k =>
        zrow.map (fun v => v * at0 urow k)), b.length = n_lift := by
      intro b hb
      obtain ⟨k, _, rfl⟩ := List.mem_map.1 hb
      rw [List.length_map, hlen]
    refine ⟨?_, ?_, ?_⟩
    · show (zrow ++ ((List.range m).map (fun k =>
        zrow.map (fun v => v * at0 urow k))).flatten).length =
        (m + 1) * n_lift
      rw [List.length_append, hlen,
        length_flatten_uniform _ n_lift hblocks, List.length_map,
        List.length_range]
      ring
    · show (zrow ++ ((List.range m).map (fun k =>
        zrow.map (fun v => v * at0 urow k))).flatten).take n_lift = zrow
      exact List.take_left' hlen
    · intro k hk
      show ((zrow ++ ((List.range m).map (fun j =>
        zrow.map (fun v => v * at0 urow j))).flatten).drop
        ((k + 1) * n_lift)).take n_lift = zrow.map (fun v => v * at0 urow k)
      rw [show (k + 1) * n_lift = zrow.length + k * n_lift from by
          rw [hlen]; ring,
        drop_append_len,
        flatten_drop_take_uniform _ n_lift k hblocks (by
          rw [List.length_map, List.length_range]; exact hk),
        getD_map_range _ _ _ _ hk]

/-- C5 witness: one trajectory with two samples, the identity base lift
and one control channel. -/
theorem bilinearLift_blocks_witness :
    (bilinearLift (fun xs _ => xs) 1 [[[(1 : ℚ)], [2]]] [[[(5 : ℚ)]]] =
      List.zipWith (fun zT uT => List.zipWith (fun zrow urow =>
        augRow 1 zrow urow) zT uT)
        (List.zipWith (fun xi ui => (fun xs _ => xs) xi.dropLast ui)
          [[[(1 : ℚ)], [2]]] [[[(5 : ℚ)]]]) [[[(5 : ℚ)]]] ∧
    (∀ zrow urow : List ℚ, zrow.length = 1 →
      (augRow 1 zrow urow).length = (1 + 1) * 1 ∧
      (augRow 1 zrow urow).take 1 = zrow ∧
      (∀ k, k < 1 →
        ((augRow 1 zrow urow).drop ((k + 1) * 1)).take 1 =
          zrow.map (fun v => v * at0 urow k)))) :=
  bilinearLift_blocks (fun xs _ => xs) 1 1 [[[(1 : ℚ)], [2]]]
    [[[(5 : ℚ)]]] (by decide)

end KoopCore
